import Mathlib

/-!
# Verification of `bartdeboer/words`

A shallow embedding of `words.go` (word splitting and case conversion) and theorems about it.

Go strings are byte sequences; a byte is modelled as a natural number (below 256) and a
string as a list of bytes. `SplitWords` is the index loop of the source, carried out on an
explicit scan state; the case joiners are built on top of it exactly as in the source.
-/

namespace Words

/-! ## Data model -/

/-- A Go string: the sequence of its bytes. -/
abbrev Str := List Nat

/-- The bytes of an ASCII string literal. -/
def ascii (s : String) : Str := s.toList.map Char.toNat

/-! ## Character classes (`isNumeric`, `isLower`, `isUpper`, `isAlpha`, `isAlphaNumeric`) -/

/-- Source: `r >= '0' && r <= '9'`. -/
def isNumeric (r : Nat) : Bool := decide (48 ≤ r) && decide (r ≤ 57)

/-- Source: `r >= 'a' && r <= 'z'`. -/
def isLower (r : Nat) : Bool := decide (97 ≤ r) && decide (r ≤ 122)

/-- Source: `r >= 'A' && r <= 'Z'`. -/
def isUpper (r : Nat) : Bool := decide (65 ≤ r) && decide (r ≤ 90)

/-- Source: `isUpper(r) || isLower(r)`. -/
def isAlpha (r : Nat) : Bool := isUpper r || isLower r

/-- Source: `isAlpha(r) || isNumeric(r)`. -/
def isAlphaNumeric (r : Nat) : Bool := isAlpha r || isNumeric r

/-! ## Masks -/

/-- Mask constant `000`. -/
def nonAlphaNumMask : Nat := 0

/-- Mask constant `001`. -/
def alphaNumMask : Nat := 1

/-- Mask constant `010`. -/
def upperMask : Nat := 2

/-- Source: `getMask`. -/
def getMask (r : Nat) : Nat :=
  if isUpper r then alphaNumMask ||| upperMask
  else if isAlphaNumeric r then alphaNumMask
  else nonAlphaNumMask

/-! ## `SplitWords` -/

/-- The Go slice expression `s[lo:hi]` (for `lo ≤ hi ≤ len(s)`). -/
def slice (s : Str) (lo hi : Nat) : Str := (s.take hi).drop lo

/-- The local variables of `SplitWords` that live across loop iterations. -/
structure Scan where
  words : List Str
  wordStart : Nat
  prevMask : Nat
  curMask : Nat
  nextMask : Nat
deriving DecidableEq, Repr

/-- The lookahead of the loop body: the mask of `s[i+1]`, read only when `i+1 < len(s)`. -/
def lookahead (s : Str) (i : Nat) : Nat :=
  if h : i + 1 < s.length then getMask (s.get ⟨i + 1, h⟩) else nonAlphaNumMask

/-- One iteration of the `for` loop of `SplitWords`, at index `i`. -/
def scanStep (s : Str) (i : Nat) (st : Scan) : Scan :=
  let prevMask := st.curMask
  let curMask := st.nextMask
  let nextMask := lookahead s i
  if curMask &&& alphaNumMask = 0 then
    -- separator: close the pending word, restart after `i`, `continue`
    let words :=
      if prevMask &&& alphaNumMask ≠ 0 ∧ i > st.wordStart then
        st.words ++ [slice s st.wordStart i]
      else st.words
    { words := words, wordStart := i + 1,
      prevMask := prevMask, curMask := curMask, nextMask := nextMask }
  else if curMask &&& upperMask ≠ 0 ∧
      (prevMask &&& upperMask = 0 ∨
        (nextMask &&& upperMask = 0 ∧ nextMask &&& alphaNumMask ≠ 0)) then
    if i > st.wordStart then
      { words := st.words ++ [slice s st.wordStart i], wordStart := i,
        prevMask := prevMask, curMask := curMask, nextMask := nextMask }
    else
      { words := st.words, wordStart := st.wordStart,
        prevMask := prevMask, curMask := curMask, nextMask := nextMask }
  else
    { words := st.words, wordStart := st.wordStart,
      prevMask := prevMask, curMask := curMask, nextMask := nextMask }

/-- The loop `for ; i < len(s); i++`, entered at index `i` with exactly `n = len(s) - i`
iterations left; `SplitWords` runs it from `i = 0` with `n = len(s)`. -/
def scanLoop (s : Str) : Nat → Nat → Scan → Scan
  | 0, _, st => st
  | n + 1, i, st => scanLoop s n (i + 1) (scanStep s i st)

/-- The scan state on entry to the loop. -/
def scanInit (s : Str) : Scan :=
  { words := [], wordStart := 0,
    prevMask := nonAlphaNumMask, curMask := nonAlphaNumMask,
    nextMask := if h : 0 < s.length then getMask (s.get ⟨0, h⟩) else nonAlphaNumMask }

/-- Source: `SplitWords`. -/
def SplitWords (s : Str) : List Str :=
  if s.length = 0 then []
  else
    let st := scanLoop s s.length 0 (scanInit s)
    if st.curMask &&& alphaNumMask ≠ 0 then st.words ++ [s.drop st.wordStart]
    else st.words

/-! ## Library functions used by the joiners

`strings.Join`, `strings.ToUpper` and `strings.ToLower` of the Go standard library. The case
functions are modelled on ASCII input, where they act byte by byte; the joiners only ever
apply them to words of `SplitWords` and to the separators `_` and `-`, all of which are
ASCII (see `words_alnum`). -/

/-- Go: `strings.Join(elems, sep)`. -/
def Join : List Str → Str → Str
  | [], _ => []
  | [e], _ => e
  | e :: rest, sep => e ++ sep ++ Join rest sep

/-- Upper-case one ASCII byte: `c -= 'a' - 'A'` when `'a' <= c <= 'z'`. -/
def toUpperByte (c : Nat) : Nat := if isLower c then c - 32 else c

/-- Lower-case one ASCII byte: `c += 'a' - 'A'` when `'A' <= c <= 'Z'`. -/
def toLowerByte (c : Nat) : Nat := if isUpper c then c + 32 else c

/-- Go: `strings.ToUpper` on an ASCII string. -/
def ToUpper (s : Str) : Str := s.map toUpperByte

/-- Go: `strings.ToLower` on an ASCII string. -/
def ToLower (s : Str) : Str := s.map toLowerByte

/-! ## Case joiners -/

/-- The keys of the `initialisms` map. -/
def initialismKeys : List Str :=
  ["API", "ASCII", "CPU", "CSS", "DNS", "EOF", "GUID", "HTML", "HTTP", "HTTPS", "ID", "IO",
   "IP", "JS", "JSON", "LHS", "QPS", "RAM", "RHS", "RPC", "SLA", "SMTP", "SQL", "SSH", "TCP",
   "TLS", "TTL", "UDP", "UI", "UID", "UUID", "URI", "URL", "UTF", "VM", "XML", "XMPP", "XSRF",
   "XSS"].map ascii

/-- Source: the map lookup `initialisms[key]` (false for an absent key). -/
def initialisms (key : Str) : Bool := initialismKeys.contains key

/-- Source: `ToSnakeCase`. -/
def ToSnakeCase (s : Str) : Str :=
  let words := SplitWords s
  ToLower (Join words (ascii "_"))

/-- Source: `ToConstantCase`. -/
def ToConstantCase (s : Str) : Str :=
  let words := SplitWords s
  ToUpper (Join words (ascii "_"))

/-- Source: `ToKebabCase`. -/
def ToKebabCase (s : Str) : Str :=
  let words := SplitWords s
  ToLower (Join words (ascii "-"))

/-- Source: `Capitalize` (`s[:1]` upper-cased, `s[1:]` lower-cased; ASCII input). -/
def Capitalize (s : Str) : Str :=
  if s.length = 0 then []
  else ToUpper (s.take 1) ++ ToLower (s.drop 1)

/-- The body of the `range` loop of `ToCapWords`. -/
def capStep (out : List Str) (word : Str) : List Str :=
  if initialisms (ToUpper word) then out ++ [ToUpper word]
  else out ++ [Capitalize word]

/-- Source: `ToCapWords`. -/
def ToCapWords (s : Str) : Str :=
  let input := SplitWords s
  let out := input.foldl capStep []
  Join out []

/-- The body of the `range` loop of `ToMixedCase`, at index `i`. -/
def mixedStep (out : List Str) (iw : Nat × Str) : List Str :=
  let upperWord := ToUpper iw.2
  if iw.1 = 0 then out ++ [ToLower iw.2]
  else if initialisms upperWord then out ++ [upperWord]
  else out ++ [Capitalize iw.2]

/-- Source: `ToMixedCase`. -/
def ToMixedCase (s : Str) : Str :=
  let input := SplitWords s
  let out := input.enum.foldl mixedStep []
  Join out []

/-! ## The scan as a recursion over the unread input

`splitFrom prevUp acc rest` is what the scan still produces when the pending word
`s[wordStart:i]` is `acc`, the byte before position `i` was upper case iff `prevUp`, and
`rest` is the unread input `s[i:]`. `SplitWords_eq_splitFrom` shows that the loop of the
source computes it. -/

/-- The mask of the first byte of the unread input, `nonAlphaNumMask` at the end. -/
def headMask : Str → Nat
  | [] => nonAlphaNumMask
  | c :: _ => getMask c

/-- Whether the next byte exists and is a lower-case letter or a digit. -/
def nextLow : Str → Bool
  | [] => false
  | d :: _ => isAlphaNumeric d && !isUpper d

/-- The pending word, closed: nothing when it is empty. -/
def flush (acc : Str) : List Str := if acc = [] then [] else [acc]

/-- The words still to be produced from pending word `acc` and unread input. -/
def splitFrom (prevUp : Bool) (acc : Str) : Str → List Str
  | [] => flush acc
  | c :: t =>
    if isAlphaNumeric c = false then flush acc ++ splitFrom false [] t
    else if isUpper c = true ∧ (prevUp = false ∨ nextLow t = true) ∧ acc ≠ [] then
      acc :: splitFrom true [c] t
    else splitFrom (isUpper c) (acc ++ [c]) t

/-- What `SplitWords` returns from the state in which the loop ends. -/
def finish (s : Str) (st : Scan) : List Str :=
  if st.curMask &&& alphaNumMask ≠ 0 then st.words ++ [s.drop st.wordStart] else st.words

/-! ## Word shapes used in the statements -/

/-- A lower-case ASCII letter or a digit. -/
def isLowerOrDigit (c : Nat) : Bool := isLower c || isNumeric c

/-- A non-empty run of lower-case letters and digits. -/
def lowerRun (w : Str) : Bool := !w.isEmpty && w.all isLowerOrDigit

/-- An acronym: a non-empty run of upper-case letters. -/
def acronym (w : Str) : Bool := !w.isEmpty && w.all isUpper

/-- One upper-case letter followed by one or more lower-case letters or digits. -/
def capWord : Str → Bool
  | [] => false
  | c :: r => isUpper c && lowerRun r

/-- What `ToCapWords` emits for one word: the word upper-cased if that is an initialism,
the word capitalised otherwise. -/
def capOne (w : Str) : Str :=
  if initialisms (ToUpper w) then ToUpper w else Capitalize w

/-- Whether the last two bytes of a string are both upper-case letters. -/
def lastTwoUpper (s : Str) : Bool :=
  match s.reverse with
  | b :: a :: _ => isUpper a && isUpper b
  | _ => false

/-- Whether a string, given in reverse, starts with two upper-case letters; when it has a
single byte, `up` tells whether the byte before it is an upper-case letter. -/
def endPair : Bool → Str → Bool
  | _, [] => false
  | up, [b] => up && isUpper b
  | _, b :: a :: _ => isUpper a && isUpper b

/-- A string with every byte `old` replaced by `new`. -/
def replaceByte (old new : Nat) (s : Str) : Str := s.map (fun c => if c = old then new else c)

/-- Whether a string has two neighbouring bytes, the first satisfying `p` and the second
satisfying `q`. -/
def adjacent (p q : Nat → Bool) : Str → Bool
  | a :: b :: t => (p a && q b) || adjacent p q (b :: t)
  | _ => false

/-- Whether a string has three neighbouring bytes satisfying `p`, `q` and `r` in order. -/
def adjacent3 (p q r : Nat → Bool) : Str → Bool
  | a :: b :: c :: t => (p a && q b && r c) || adjacent3 p q r (b :: c :: t)
  | _ => false

/-- The byte is an underscore. -/
def isUnderscore (c : Nat) : Bool := c == 95

/-! ## The scan with Go's run-time bounds checks

The same loop, with every index and slice expression checked as the Go run time checks it:
`none` stands for the panic of an out-of-range access. -/

/-- Go: the index expression `s[i]`, which panics unless `i < len(s)`. -/
def indexChecked (s : Str) (i : Nat) : Option Nat := s[i]?

/-- Go: the slice expression `s[lo:hi]`, which panics unless `lo ≤ hi ≤ len(s)`. -/
def sliceChecked (s : Str) (lo hi : Nat) : Option Str :=
  if lo ≤ hi ∧ hi ≤ s.length then some (slice s lo hi) else none

/-- Go: the slice expression `s[lo:]`, which panics unless `lo ≤ len(s)`. -/
def sliceFromChecked (s : Str) (lo : Nat) : Option Str :=
  if lo ≤ s.length then some (s.drop lo) else none

/-- The lookahead of the loop body, with the read of `s[i+1]` checked. -/
def lookaheadChecked (s : Str) (i : Nat) : Option Nat :=
  if i + 1 < s.length then (indexChecked s (i + 1)).map getMask else some nonAlphaNumMask

/-- One iteration of the loop of `SplitWords` with checked accesses. -/
def scanStepChecked (s : Str) (i : Nat) (st : Scan) : Option Scan :=
  let prevMask := st.curMask
  let curMask := st.nextMask
  (lookaheadChecked s i).bind fun nextMask =>
    if curMask &&& alphaNumMask = 0 then
      if prevMask &&& alphaNumMask ≠ 0 ∧ i > st.wordStart then
        (sliceChecked s st.wordStart i).map fun w =>
          { words := st.words ++ [w], wordStart := i + 1,
            prevMask := prevMask, curMask := curMask, nextMask := nextMask }
      else
        some { words := st.words, wordStart := i + 1,
               prevMask := prevMask, curMask := curMask, nextMask := nextMask }
    else if curMask &&& upperMask ≠ 0 ∧
        (prevMask &&& upperMask = 0 ∨
          (nextMask &&& upperMask = 0 ∧ nextMask &&& alphaNumMask ≠ 0)) then
      if i > st.wordStart then
        (sliceChecked s st.wordStart i).map fun w =>
          { words := st.words ++ [w], wordStart := i,
            prevMask := prevMask, curMask := curMask, nextMask := nextMask }
      else
        some { words := st.words, wordStart := st.wordStart,
               prevMask := prevMask, curMask := curMask, nextMask := nextMask }
    else
      some { words := st.words, wordStart := st.wordStart,
             prevMask := prevMask, curMask := curMask, nextMask := nextMask }

/-- The loop with checked accesses, entered at index `i` with `n` iterations left. -/
def scanLoopChecked (s : Str) : Nat → Nat → Scan → Option Scan
  | 0, _, st => some st
  | n + 1, i, st => (scanStepChecked s i st).bind (scanLoopChecked s n (i + 1))

/-- The scan state on entry to the loop, with the read of `s[0]` checked. -/
def scanInitChecked (s : Str) : Option Scan :=
  if 0 < s.length then
    (indexChecked s 0).map fun c =>
      { words := [], wordStart := 0, prevMask := nonAlphaNumMask,
        curMask := nonAlphaNumMask, nextMask := getMask c }
  else
    some { words := [], wordStart := 0, prevMask := nonAlphaNumMask,
           curMask := nonAlphaNumMask, nextMask := nonAlphaNumMask }

/-- `SplitWords` with checked accesses: `none` if any access is out of range. -/
def SplitWordsChecked (s : Str) : Option (List Str) :=
  if s.length = 0 then some []
  else
    (scanInitChecked s).bind fun st0 =>
      (scanLoopChecked s s.length 0 st0).bind fun st =>
        if st.curMask &&& alphaNumMask ≠ 0 then
          (sliceFromChecked s st.wordStart).map fun w => st.words ++ [w]
        else some st.words

/-- The scan state after the first `k` iterations of the loop. -/
def scanAt (s : Str) (k : Nat) : Scan := scanLoop s k 0 (scanInit s)

/-! ## Shapes of words -/

/-- A single upper-case letter followed by zero or more lower-case letters or digits. -/
def capShape : Str → Bool
  | [] => false
  | c :: r => isUpper c && r.all isLowerOrDigit

/-- A run of two or more upper-case letters. -/
def upperRun (w : Str) : Bool := decide (2 ≤ w.length) && w.all isUpper

/-- What the pending word of the scan can look like, given whether the last byte read was
upper case and what input is still unread: empty; a run of lower-case letters and digits; an
upper-case letter followed by lower-case letters and digits; or a run of upper-case letters
which, once it has two letters, is not followed by a lower-case letter or digit. -/
def pendingOK (up : Bool) (acc rest : Str) : Prop :=
  acc = [] ∨
  (lowerRun acc = true ∧ up = false) ∨
  (∃ c r, acc = c :: r ∧ isUpper c = true ∧ lowerRun r = true ∧ up = false) ∨
  (acc ≠ [] ∧ (∀ c ∈ acc, isUpper c = true) ∧ up = true ∧
    (2 ≤ acc.length → nextLow rest = false))

/-! ## The camel-case boundary rule of the specification -/

/-- Specification of the camel-case rule at index `i` of `s`: `s[i]` is an upper-case letter,
and `s[i-1]` is not an upper-case letter or `i+1 < len(s)` and `s[i+1]` is a lower-case letter
or digit. -/
def camelRule (s : Str) (i : Nat) : Bool :=
  isUpper (s.getD i 0) &&
    (!isUpper (s.getD (i - 1) 0) ||
      (decide (i + 1 < s.length) && isLowerOrDigit (s.getD (i + 1) 0)))

/-- A word of `ws` begins at offset `i` of the concatenation of `ws`: `i` is the total length
of a proper non-empty prefix of the word list. -/
def wordBeginsAt (ws : List Str) (i : Nat) : Prop :=
  ∃ k, 0 < k ∧ k < ws.length ∧ ((ws.take k).flatten).length = i

/-- The offsets at which the second and later words of `ws` begin, when the first begins at
offset `off`. -/
def offsets (off : Nat) : List Str → List Nat
  | [] => []
  | [_] => []
  | w :: v :: t => (off + w.length) :: offsets (off + w.length) (v :: t)

/-- The offsets of the unread input at which the camel-case rule of the scan fires, when the
unread input begins at offset `off` and the byte before it is upper case iff `up`. -/
def rulePos (up : Bool) (off : Nat) : Str → List Nat
  | [] => []
  | c :: t =>
    (if isUpper c = true ∧ (up = false ∨ nextLow t = true) then [off] else []) ++
      rulePos (isUpper c) (off + 1) t

/-! ## Masks and character classes -/

theorem isUpper_alnum {r : Nat} (h : isUpper r = true) : isAlphaNumeric r = true := by
  simp [isAlphaNumeric, isAlpha, h]

theorem getMask_cases (r : Nat) :
    (isAlphaNumeric r = false ∧ isUpper r = false ∧ getMask r = 0) ∨
    (isAlphaNumeric r = true ∧ isUpper r = false ∧ getMask r = 1) ∨
    (isAlphaNumeric r = true ∧ isUpper r = true ∧ getMask r = 3) := by
  unfold getMask
  cases hu : isUpper r
  · cases ha : isAlphaNumeric r <;> simp [nonAlphaNumMask, alphaNumMask]
  · simp [isUpper_alnum hu, alphaNumMask, upperMask]

theorem headMask_cases (t : Str) :
    (nextLow t = false ∧ headMask t = 0) ∨ (nextLow t = true ∧ headMask t = 1) ∨
    (nextLow t = false ∧ headMask t = 3) := by
  cases t with
  | nil => simp [nextLow, headMask, nonAlphaNumMask]
  | cons d t =>
    rcases getMask_cases d with ⟨h1, h2, h3⟩ | ⟨h1, h2, h3⟩ | ⟨h1, h2, h3⟩ <;>
      simp [nextLow, headMask, h1, h2, h3]

theorem lookahead_eq (s : Str) (i : Nat) : lookahead s i = headMask (s.drop (i + 1)) := by
  unfold lookahead
  by_cases h : i + 1 < s.length
  · rw [dif_pos h, List.drop_eq_getElem_cons h]
    rfl
  · rw [dif_neg h, List.drop_of_length_le (by omega)]
    rfl

/-! ## The loop computes `splitFrom` -/

theorem scanStep_curMask (s : Str) (i : Nat) (st : Scan) :
    (scanStep s i st).curMask = st.nextMask := by
  unfold scanStep
  dsimp only
  split_ifs <;> rfl

theorem scanStep_nextMask (s : Str) (i : Nat) (st : Scan) :
    (scanStep s i st).nextMask = lookahead s i := by
  unfold scanStep
  dsimp only
  split_ifs <;> rfl

theorem drop_snoc_of_le {pre : Str} {k : Nat} (c : Nat) (h : k ≤ pre.length) :
    (pre ++ [c]).drop k = pre.drop k ++ [c] := by
  rw [List.drop_append_of_le_length h]

theorem drop_ne_nil_of_lt {pre : Str} {k : Nat} (h : k < pre.length) : pre.drop k ≠ [] := by
  intro h0
  have := congrArg List.length h0
  simp at this
  omega

theorem slice_prefix (pre rest : Str) (k : Nat) :
    slice (pre ++ rest) k pre.length = pre.drop k := by
  simp [slice]

/-- Loop invariant: from any state reached after reading `pre`, the loop followed by the
final append yields the words found so far followed by `splitFrom` of the unread input. -/
theorem scanLoop_spec (s : Str) : ∀ (rest pre : Str) (st : Scan) (up : Bool),
    s = pre ++ rest → st.nextMask = headMask rest →
    ((st.curMask = 0 ∧ up = false ∧ st.wordStart = pre.length) ∨
     (st.curMask = 1 ∧ up = false ∧ st.wordStart < pre.length) ∨
     (st.curMask = 3 ∧ up = true ∧ st.wordStart < pre.length)) →
    finish s (scanLoop s rest.length pre.length st) =
      st.words ++ splitFrom up (pre.drop st.wordStart) rest := by
  intro rest
  induction rest with
  | nil =>
    intro pre st up hs hn hc
    simp only [List.append_nil] at hs
    subst hs
    rcases hc with ⟨h1, h2, h3⟩ | ⟨h1, h2, h3⟩ | ⟨h1, h2, h3⟩
    · simp [scanLoop, finish, splitFrom, flush, h1, h3, alphaNumMask]
    · simp [scanLoop, finish, splitFrom, flush, h1, alphaNumMask, drop_ne_nil_of_lt h3]
    · simp [scanLoop, finish, splitFrom, flush, h1, alphaNumMask, drop_ne_nil_of_lt h3]
  | cons c t ih =>
    intro pre st up hs hn hc
    have hs2 : s = (pre ++ [c]) ++ t := by simp [hs]
    have hl : lookahead s pre.length = headMask t := by
      rw [lookahead_eq, hs]; simp
    have hcur : st.nextMask = getMask c := hn
    have hlen : (pre ++ [c]).length = pre.length + 1 := by simp
    have hsl : slice s st.wordStart pre.length = pre.drop st.wordStart := by
      rw [hs]; exact slice_prefix _ _ _
    have key := ih (pre ++ [c]) (scanStep s pre.length st) (isUpper c) hs2
      (by rw [scanStep_nextMask, hl])
    rw [hlen] at key
    rw [List.length_cons, scanLoop]
    rcases getMask_cases c with ⟨ha, hu, hm⟩ | ⟨ha, hu, hm⟩ | ⟨ha, hu, hm⟩ <;>
    rcases headMask_cases t with ⟨hnl, hh⟩ | ⟨hnl, hh⟩ | ⟨hnl, hh⟩ <;>
    rcases hc with ⟨h1, h2, h3⟩ | ⟨h1, h2, h3⟩ | ⟨h1, h2, h3⟩ <;>
    · have hw : st.wordStart ≤ pre.length := by omega
      rw [key (by
        simp [scanStep, hcur, hm, hl, hh, h1, h3, hu, alphaNumMask, upperMask]
        try omega)]
      simp [scanStep, splitFrom, flush, hcur, hm, hl, hh, h1, h2, h3, hsl, ha, hu, hnl,
        alphaNumMask, upperMask, drop_snoc_of_le, hw]
      try rw [if_neg (by omega)]; rfl

/-- The loop of `SplitWords` computes `splitFrom` from the empty pending word. -/
theorem SplitWords_eq_splitFrom (s : Str) : SplitWords s = splitFrom false [] s := by
  cases s with
  | nil => rfl
  | cons c t =>
    have h := scanLoop_spec (c :: t) (c :: t) [] (scanInit (c :: t)) false rfl
      (by simp [scanInit, headMask])
      (Or.inl ⟨rfl, rfl, rfl⟩)
    have h0 : (scanInit (c :: t)).words = [] := rfl
    rw [h0, List.nil_append, List.drop_nil] at h
    rw [← h]
    rfl

/-! ## General facts about `splitFrom` -/

theorem flatten_flush (acc : Str) : (flush acc).flatten = acc := by
  unfold flush
  split
  · next h => simp [h]
  · simp

/-- The words still to come are the pending word followed by the alphanumeric bytes of
the unread input. -/
theorem splitFrom_flatten (rest : Str) : ∀ (up : Bool) (acc : Str),
    (splitFrom up acc rest).flatten = acc ++ rest.filter isAlphaNumeric := by
  induction rest with
  | nil => intro up acc; simp [splitFrom, flatten_flush]
  | cons c t ih =>
    intro up acc
    unfold splitFrom
    split_ifs with h1 h2
    · simp [ih, flatten_flush, h1]
    · have h1' : isAlphaNumeric c = true := by simpa using h1
      simp [ih, h1']
    · have h1' : isAlphaNumeric c = true := by simpa using h1
      simp [ih, h1']

/-- Every word still to come is non-empty and alphanumeric, if the pending word is
alphanumeric. -/
theorem splitFrom_words (rest : Str) : ∀ (up : Bool) (acc : Str),
    (∀ c ∈ acc, isAlphaNumeric c = true) →
    ∀ w ∈ splitFrom up acc rest, w ≠ [] ∧ ∀ c ∈ w, isAlphaNumeric c = true := by
  induction rest with
  | nil =>
    intro up acc hacc w hw
    unfold splitFrom flush at hw
    split_ifs at hw with h
    · simp at hw
    · simp only [List.mem_singleton] at hw
      subst hw
      exact ⟨h, hacc⟩
  | cons c t ih =>
    intro up acc hacc w hw
    unfold splitFrom at hw
    split_ifs at hw with h1 h2
    · rcases List.mem_append.mp hw with hw | hw
      · unfold flush at hw
        split_ifs at hw with h
        · simp at hw
        · simp only [List.mem_singleton] at hw
          subst hw
          exact ⟨h, hacc⟩
      · exact ih false [] (by simp) w hw
    · have h1' : isAlphaNumeric c = true := by simpa using h1
      rcases List.mem_cons.mp hw with hw | hw
      · subst hw
        exact ⟨h2.2.2, hacc⟩
      · exact ih true [c] (by simpa using h1') w hw
    · have h1' : isAlphaNumeric c = true := by simpa using h1
      refine ih (isUpper c) (acc ++ [c]) ?_ w hw
      intro d hd
      rcases List.mem_append.mp hd with hd | hd
      · exact hacc d hd
      · simp only [List.mem_singleton] at hd
        subst hd
        exact h1'

theorem nextLow_append_sep (a b : Str) {c : Nat} (hc : isAlphaNumeric c = false) :
    nextLow (a ++ c :: b) = nextLow a := by
  cases a with
  | nil => simp [nextLow, hc]
  | cons d a => rfl

/-- A separator byte cuts the scan in two independent parts. -/
theorem splitFrom_sep (a b : Str) {c : Nat} (hc : isAlphaNumeric c = false) :
    ∀ (up : Bool) (acc : Str),
    splitFrom up acc (a ++ c :: b) = splitFrom up acc a ++ splitFrom false [] b := by
  induction a with
  | nil => intro up acc; simp [splitFrom, hc]
  | cons d a ih =>
    intro up acc
    rw [List.cons_append, splitFrom, splitFrom, nextLow_append_sep a b hc]
    split_ifs <;> simp [ih]

/-- A lower-case letter or digit is appended to the pending word. -/
theorem splitFrom_low (up : Bool) (acc rest : Str) {d : Nat}
    (ha : isAlphaNumeric d = true) (hu : isUpper d = false) :
    splitFrom up acc (d :: rest) = splitFrom false (acc ++ [d]) rest := by
  simp [splitFrom, ha, hu]

/-- A run of lower-case letters and digits is appended to the pending word. -/
theorem splitFrom_lowRun (r rest : Str)
    (hr : ∀ d ∈ r, isAlphaNumeric d = true ∧ isUpper d = false) :
    ∀ (up : Bool) (acc : Str), r ≠ [] →
    splitFrom up acc (r ++ rest) = splitFrom false (acc ++ r) rest := by
  induction r with
  | nil => intro up acc h; exact absurd rfl h
  | cons d r ih =>
    intro up acc _
    have hd := hr d (by simp)
    rw [List.cons_append, splitFrom_low up acc _ hd.1 hd.2]
    by_cases hr0 : r = []
    · subst hr0; simp
    · rw [ih (fun e he => hr e (by simp [he])) false (acc ++ [d]) hr0]
      simp

/-- After an upper-case letter, a run of upper-case letters not followed by a lower-case
letter or digit is appended to the pending word. -/
theorem splitFrom_upRun (u rest : Str) (hu : ∀ c ∈ u, isUpper c = true)
    (hrest : nextLow rest = false) :
    ∀ (acc : Str), splitFrom true acc (u ++ rest) = splitFrom true (acc ++ u) rest := by
  induction u with
  | nil => intro acc; simp
  | cons c u ih =>
    intro acc
    have hc := hu c (by simp)
    have hn : nextLow (u ++ rest) = false := by
      cases u with
      | nil => simpa using hrest
      | cons e u => simp [nextLow, hu e (by simp)]
    rw [List.cons_append, splitFrom]
    simp only [isUpper_alnum hc, hc, hn]
    simp [ih (fun e he => hu e (by simp [he])) (acc ++ [c])]

/-! ## Word shapes -/

theorem isLowerOrDigit_spec {c : Nat} (h : isLowerOrDigit c = true) :
    isAlphaNumeric c = true ∧ isUpper c = false := by
  simp only [isLowerOrDigit, isLower, isNumeric, Bool.or_eq_true, Bool.and_eq_true,
    decide_eq_true_eq] at h
  constructor
  · simp only [isAlphaNumeric, isAlpha, isUpper, isLower, isNumeric, Bool.or_eq_true,
      Bool.and_eq_true, decide_eq_true_eq]
    omega
  · simp only [isUpper, Bool.and_eq_false_iff, decide_eq_false_iff_not]
    omega

theorem lowerRun_spec {w : Str} (h : lowerRun w = true) :
    w ≠ [] ∧ ∀ d ∈ w, isAlphaNumeric d = true ∧ isUpper d = false := by
  simp only [lowerRun, Bool.and_eq_true, Bool.not_eq_true', List.isEmpty_eq_false,
    List.all_eq_true] at h
  exact ⟨h.1, fun d hd => isLowerOrDigit_spec (h.2 d hd)⟩

theorem acronym_spec {w : Str} (h : acronym w = true) :
    ∃ c u, w = c :: u ∧ isUpper c = true ∧ ∀ d ∈ u, isUpper d = true := by
  cases w with
  | nil => simp [acronym] at h
  | cons c u =>
    simp only [acronym, List.isEmpty_cons, Bool.not_false, Bool.true_and, List.all_cons,
      Bool.and_eq_true, List.all_eq_true] at h
    exact ⟨c, u, rfl, h.1, h.2⟩

theorem capWord_spec {w : Str} (h : capWord w = true) :
    ∃ c r, w = c :: r ∧ isUpper c = true ∧ r ≠ [] ∧
      ∀ d ∈ r, isAlphaNumeric d = true ∧ isUpper d = false := by
  cases w with
  | nil => simp [capWord] at h
  | cons c r =>
    simp only [capWord, Bool.and_eq_true] at h
    exact ⟨c, r, rfl, h.1, lowerRun_spec h.2⟩

theorem nextLow_lowRun {r : Str} (rest : Str) (h0 : r ≠ [])
    (hr : ∀ d ∈ r, isAlphaNumeric d = true ∧ isUpper d = false) :
    nextLow (r ++ rest) = true := by
  cases r with
  | nil => exact absurd rfl h0
  | cons d r => simp [nextLow, hr d (by simp)]

/-- An upper-case letter at which the camel-case rule fires closes the pending word. -/
theorem splitFrom_boundary (up : Bool) (acc t : Str) {c : Nat} (hc : isUpper c = true)
    (h : up = false ∨ nextLow t = true) :
    splitFrom up acc (c :: t) = flush acc ++ splitFrom true [c] t := by
  rw [splitFrom]
  by_cases ha : acc = []
  · simp [isUpper_alnum hc, hc, ha, flush]
  · simp [isUpper_alnum hc, hc, ha, flush, h]

/-- Scanning the concatenation of acronyms and capitalised words, with no two acronyms
adjacent, gives back the words. -/
theorem splitFrom_camel : ∀ (W : List Str) (up : Bool) (acc : Str),
    (∀ w ∈ W, acronym w = true ∨ capWord w = true) →
    (∀ p ∈ W.zip W.tail, ¬ (acronym p.1 = true ∧ acronym p.2 = true)) →
    (up = true → ∀ w ∈ W.head?, capWord w = true) →
    splitFrom up acc W.flatten = flush acc ++ W := by
  intro W
  induction W with
  | nil => intro up acc _ _ _; simp [splitFrom]
  | cons w t ih =>
    intro up acc hW hadj hup
    have hW' : ∀ v ∈ t, acronym v = true ∨ capWord v = true :=
      fun v hv => hW v (List.mem_cons_of_mem _ hv)
    have hadj' : ∀ p ∈ t.zip t.tail, ¬ (acronym p.1 = true ∧ acronym p.2 = true) := by
      intro p hp
      apply hadj p
      cases t with
      | nil => simp at hp
      | cons v t => simp only [List.tail_cons, List.zip_cons_cons] at hp ⊢
                    exact List.mem_cons_of_mem _ hp
    by_cases hcap : capWord w = true
    · obtain ⟨c, r, rfl, hc, hr0, hr⟩ := capWord_spec hcap
      rw [List.flatten_cons, List.cons_append,
        splitFrom_boundary up acc _ hc (Or.inr (nextLow_lowRun _ hr0 hr)),
        splitFrom_lowRun r _ hr true [c] hr0,
        ih false ([c] ++ r) hW' hadj' (by simp)]
      simp [flush]
    · have hacr : acronym w = true := (hW w (by simp)).resolve_right hcap
      have hupf : up = false := by
        cases up with
        | false => rfl
        | true => exact absurd (hup rfl w (by simp)) hcap
      obtain ⟨c, u, rfl, hc, hu⟩ := acronym_spec hacr
      have hhead : ∀ v ∈ t.head?, capWord v = true := by
        intro v hv
        cases t with
        | nil => simp at hv
        | cons v2 t =>
          simp only [List.head?_cons, Option.mem_def, Option.some.injEq] at hv
          subst hv
          have h1 := hadj (c :: u, v2) (by simp)
          have h2 := hW' v2 (by simp)
          rcases h2 with h2 | h2
          · exact absurd ⟨hacr, h2⟩ h1
          · exact h2
      have hnl : nextLow t.flatten = false := by
        cases t with
        | nil => rfl
        | cons v2 t =>
          obtain ⟨c2, r2, rfl, hc2, -, -⟩ := capWord_spec (hhead v2 (by simp))
          simp [nextLow, hc2]
      rw [List.flatten_cons, List.cons_append,
        splitFrom_boundary up acc _ hc (Or.inl hupf),
        splitFrom_upRun u _ hu hnl [c],
        ih true ([c] ++ u) hW' hadj' (fun _ => hhead)]
      simp [flush]

/-! ## Joining and case mapping -/

theorem Join_cons_cons (a b : Str) (t : List Str) (sep : Str) :
    Join (a :: b :: t) sep = a ++ sep ++ Join (b :: t) sep := rfl

theorem Join_nil_sep : ∀ ws : List Str, Join ws [] = ws.flatten
  | [] => rfl
  | [e] => by simp [Join]
  | a :: b :: t => by
    rw [Join_cons_cons, Join_nil_sep (b :: t)]
    simp

theorem Join_eq_nil : ∀ (ws : List Str) (sep : Str), (∀ w ∈ ws, w ≠ []) →
    (Join ws sep = [] ↔ ws = [])
  | [], _, _ => by simp [Join]
  | [e], _, h => by simpa [Join] using h e (by simp)
  | a :: b :: t, sep, h => by
    rw [Join_cons_cons]
    simpa using fun (h1 : a = []) => absurd h1 (h a (by simp))

theorem map_Join (f : Nat → Nat) : ∀ (ws : List Str) (sep : Str),
    (Join ws sep).map f = Join (ws.map (List.map f)) (sep.map f)
  | [], _ => rfl
  | [e], _ => rfl
  | a :: b :: t, sep => by
    rw [Join_cons_cons, List.map_cons, List.map_cons, Join_cons_cons, List.map_append,
      List.map_append, map_Join f (b :: t) sep]
    rfl

theorem toUpperByte_toLowerByte (c : Nat) : toUpperByte (toLowerByte c) = toUpperByte c := by
  unfold toUpperByte toLowerByte isLower isUpper
  by_cases h : 65 ≤ c ∧ c ≤ 90
  · have h1 : 97 ≤ c + 32 ∧ c + 32 ≤ 122 := by omega
    have h2 : ¬ (97 ≤ c ∧ c ≤ 122) := by omega
    simp [h, h1, h2]
  · simp [h]

theorem toLowerByte_toUpperByte (c : Nat) : toLowerByte (toUpperByte c) = toLowerByte c := by
  unfold toUpperByte toLowerByte isLower isUpper
  by_cases h : 97 ≤ c ∧ c ≤ 122
  · have h1 : 65 ≤ c - 32 ∧ c - 32 ≤ 90 := by omega
    have h2 : ¬ (65 ≤ c ∧ c ≤ 90) := by omega
    have h3 : c - 32 + 32 = c := by omega
    simp [h, h1, h2, h3]
  · simp [h]

theorem ToUpper_ToLower (s : Str) : ToUpper (ToLower s) = ToUpper s := by
  simp [ToUpper, ToLower, toUpperByte_toLowerByte]

theorem ToLower_ToUpper (s : Str) : ToLower (ToUpper s) = ToLower s := by
  simp [ToUpper, ToLower, toLowerByte_toUpperByte]

theorem ToUpper_length (s : Str) : (ToUpper s).length = s.length := by simp [ToUpper]

theorem ToLower_length (s : Str) : (ToLower s).length = s.length := by simp [ToLower]

theorem Capitalize_length (s : Str) : (Capitalize s).length = s.length := by
  unfold Capitalize
  split
  · next h => simp [h]
  · simp [ToUpper_length, ToLower_length]
    omega

theorem capOne_length (w : Str) : (capOne w).length = w.length := by
  unfold capOne
  split
  · exact ToUpper_length w
  · exact Capitalize_length w

theorem foldl_capStep (ws : List Str) : ∀ out : List Str,
    ws.foldl capStep out = out ++ ws.map capOne := by
  induction ws with
  | nil => intro out; simp
  | cons w t ih =>
    intro out
    rw [List.foldl_cons, ih]
    unfold capStep capOne
    by_cases h : initialisms (ToUpper w) = true <;> simp [h]

theorem foldl_mixedStep (ws : List Str) : ∀ (n : Nat) (out : List Str),
    (ws.enumFrom (n + 1)).foldl mixedStep out = out ++ ws.map capOne := by
  induction ws with
  | nil => intro n out; simp
  | cons w t ih =>
    intro n out
    rw [List.enumFrom_cons, List.foldl_cons, ih]
    unfold mixedStep capOne
    simp only [Nat.add_one_ne_zero, if_false]
    by_cases h : initialisms (ToUpper w) = true <;> simp [h]

/-- The result of `ToCapWords` in terms of the words of the input. -/
theorem ToCapWords_eq (s : Str) : ToCapWords s = ((SplitWords s).map capOne).flatten := by
  simp [ToCapWords, foldl_capStep, Join_nil_sep]

/-- The result of `ToMixedCase` in terms of the words of the input. -/
theorem ToMixedCase_eq (s : Str) (w : Str) (rest : List Str) (h : SplitWords s = w :: rest) :
    ToMixedCase s = ToLower w ++ (rest.map capOne).flatten := by
  simp [ToMixedCase, h, List.enum, List.enumFrom_cons, foldl_mixedStep, Join_nil_sep,
    mixedStep]

/-! ## Basic facts about the words -/

/-- The words, concatenated, are the alphanumeric bytes of the input. -/
theorem words_flatten (s : Str) : (SplitWords s).flatten = s.filter isAlphaNumeric := by
  rw [SplitWords_eq_splitFrom, splitFrom_flatten]
  rfl

/-- Each word is non-empty and alphanumeric. -/
theorem words_alnum (s : Str) :
    ∀ w ∈ SplitWords s, w ≠ [] ∧ ∀ c ∈ w, isAlphaNumeric c = true := by
  rw [SplitWords_eq_splitFrom]
  exact splitFrom_words s false [] (by simp)

/-- A separator byte splits the input into two independently scanned parts. -/
theorem words_sep (a b : Str) {c : Nat} (hc : isAlphaNumeric c = false) :
    SplitWords (a ++ [c] ++ b) = SplitWords a ++ SplitWords b := by
  simp only [SplitWords_eq_splitFrom, List.append_assoc, List.singleton_append]
  exact splitFrom_sep a b hc false []

/-- A non-empty run of lower-case letters and digits is one word. -/
theorem words_lowerRun {w : Str} (h : lowerRun w = true) : SplitWords w = [w] := by
  obtain ⟨h0, hr⟩ := lowerRun_spec h
  have := splitFrom_lowRun w [] hr false [] h0
  rw [List.append_nil, List.nil_append] at this
  rw [SplitWords_eq_splitFrom, this]
  simp [splitFrom, flush, h0]

/-- Lower-case words joined by a separator byte are split back into the same words. -/
theorem words_Join_lower {c : Nat} (hc : isAlphaNumeric c = false) :
    ∀ ws : List Str, (∀ w ∈ ws, lowerRun w = true) → SplitWords (Join ws [c]) = ws
  | [], _ => rfl
  | [w], h => words_lowerRun (h w (by simp))
  | a :: b :: t, h => by
    rw [Join_cons_cons, words_sep a _ hc, words_lowerRun (h a (by simp)),
      words_Join_lower hc (b :: t) (fun w hw => h w (List.mem_cons_of_mem _ hw))]
    rfl

/-! ## Properties of `SplitWords` -/

/-- C1: acronym-aware round trip. If the first word of `ws` is a non-empty run of lower-case
letters and digits, an acronym or a capitalised word, every later word is an acronym (a
non-empty run of upper-case letters) or a capitalised word (one upper-case letter followed by
one or more lower-case letters or digits), and no two acronyms are adjacent, then
`SplitWords` of the concatenation of `ws` is `ws`. -/
theorem SplitWords_roundtrip (ws : List Str)
    (hfirst : ∀ w ∈ ws.head?, lowerRun w = true ∨ acronym w = true ∨ capWord w = true)
    (hrest : ∀ w ∈ ws.tail, acronym w = true ∨ capWord w = true)
    (hadj : ∀ p ∈ ws.zip ws.tail, ¬ (acronym p.1 = true ∧ acronym p.2 = true)) :
    SplitWords ws.flatten = ws := by
  rw [SplitWords_eq_splitFrom]
  cases ws with
  | nil => rfl
  | cons w t =>
    simp only [List.tail_cons] at hrest hadj
    by_cases hlow : lowerRun w = true
    · obtain ⟨h0, hr⟩ := lowerRun_spec hlow
      have hadj2 : ∀ p ∈ t.zip t.tail, ¬ (acronym p.1 = true ∧ acronym p.2 = true) := by
        intro p hp
        apply hadj p
        cases t with
        | nil => simp at hp
        | cons v t => simp only [List.tail_cons, List.zip_cons_cons] at hp ⊢
                      exact List.mem_cons_of_mem _ hp
      rw [List.flatten_cons, splitFrom_lowRun w _ hr false [] h0,
        splitFrom_camel t false ([] ++ w) hrest hadj2 (by simp)]
      simp [flush, h0]
    · have hw : acronym w = true ∨ capWord w = true :=
        (hfirst w (by simp)).resolve_left hlow
      rw [splitFrom_camel (w :: t) false [] ?_ hadj (by simp)]
      · simp [flush]
      · intro v hv
        rcases List.mem_cons.mp hv with hv | hv
        · subst hv; exact hw
        · exact hrest v hv

/-- Witness for C1: the three literal scenarios of the round trip. -/
theorem SplitWords_roundtrip_witness :
    SplitWords (ascii "XMLToJSONConverter") = ["XML", "To", "JSON", "Converter"].map ascii ∧
    SplitWords (ascii "HandleXMLSystem") = ["Handle", "XML", "System"].map ascii ∧
    SplitWords (ascii "handleXML") = ["handle", "XML"].map ascii :=
  ⟨SplitWords_roundtrip (["XML", "To", "JSON", "Converter"].map ascii)
      (by decide) (by decide) (by decide),
   SplitWords_roundtrip (["Handle", "XML", "System"].map ascii)
      (by decide) (by decide) (by decide),
   SplitWords_roundtrip (["handle", "XML"].map ascii) (by decide) (by decide) (by decide)⟩

/-- C2: the words of `SplitWords s`, concatenated in order, are exactly the ASCII letters
and digits of `s`, in order. -/
theorem SplitWords_flatten (s : Str) :
    (SplitWords s).flatten = s.filter isAlphaNumeric :=
  words_flatten s

/-- C3: every word of `SplitWords s` is non-empty and consists of ASCII letters and digits
only. -/
theorem SplitWords_alnum (s : Str) :
    ∀ w ∈ SplitWords s, w ≠ [] ∧ ∀ c ∈ w, isAlphaNumeric c = true :=
  words_alnum s

/-- Witness for C3: `Cc` is a word of `Aa-B--b-CcC`, non-empty and alphanumeric. -/
theorem SplitWords_alnum_witness :
    ascii "Cc" ∈ SplitWords (ascii "Aa-B--b-CcC") ∧
    (ascii "Cc" ≠ [] ∧ ∀ c ∈ ascii "Cc", isAlphaNumeric c = true) :=
  ⟨by decide, SplitWords_alnum (ascii "Aa-B--b-CcC") (ascii "Cc") (by decide)⟩

/-- Separators in front of the input are dropped. -/
theorem SplitWords_leading_seps (seps b : Str) (h : ∀ d ∈ seps, isAlphaNumeric d = false) :
    SplitWords (seps ++ b) = SplitWords b := by
  induction seps with
  | nil => rfl
  | cons d seps ih =>
    have hd := h d (by simp)
    have := splitFrom_sep [] (seps ++ b) hd false []
    simp only [List.nil_append] at this
    rw [List.cons_append, SplitWords_eq_splitFrom, this,
      ← SplitWords_eq_splitFrom (seps ++ b), ih (fun e he => h e (by simp [he]))]
    rfl

/-- C4: `SplitWords` distributes over a separator: for a byte `c` that is not an ASCII letter
or digit, `SplitWords (a ++ [c] ++ b) = SplitWords a ++ SplitWords b`. Consequently a leading
separator and a trailing separator are dropped, and a run of separators `c :: seps` acts as
one boundary. -/
theorem SplitWords_sep (a b : Str) (c : Nat) (hc : isAlphaNumeric c = false) :
    SplitWords (a ++ [c] ++ b) = SplitWords a ++ SplitWords b ∧
    SplitWords ([c] ++ b) = SplitWords b ∧
    SplitWords (a ++ [c]) = SplitWords a ∧
    ∀ seps : Str, (∀ d ∈ seps, isAlphaNumeric d = false) →
      SplitWords (a ++ (c :: seps) ++ b) = SplitWords a ++ SplitWords b := by
  have main : ∀ x y : Str, SplitWords (x ++ [c] ++ y) = SplitWords x ++ SplitWords y :=
    fun x y => words_sep x y hc
  refine ⟨main a b, ?_, ?_, ?_⟩
  · have := main [] b
    simpa [SplitWords] using this
  · have := main a []
    simpa [SplitWords] using this
  · intro seps hseps
    have := main a (seps ++ b)
    rw [SplitWords_leading_seps seps b hseps] at this
    rw [← this]
    simp

/-- Witness for C4: a hyphen between two words, and the literal scenario with leading,
trailing and repeated separators. -/
theorem SplitWords_sep_witness :
    (isAlphaNumeric 45 = false ∧
      SplitWords (ascii "another" ++ [45] ++ ascii "example123") =
        SplitWords (ascii "another") ++ SplitWords (ascii "example123")) ∧
    SplitWords (ascii "__another-_-example---123--") =
      ["another", "example", "123"].map ascii :=
  ⟨⟨by decide, (SplitWords_sep (ascii "another") (ascii "example123") 45 (by decide)).1⟩,
   by decide⟩

/-- C5 (as stated, refuted): `SplitWords "XMLHTTPRequest"` is not
`["XML", "HTTP", "Request"]`. -/
theorem SplitWords_XMLHTTPRequest_ne :
    SplitWords (ascii "XMLHTTPRequest") ≠ ["XML", "HTTP", "Request"].map ascii := by
  decide

/-- C5 (amended): `SplitWords "XMLHTTPRequest" = ["XMLHTTP", "Request"]`; the upper-case run
`XMLHTTP` stays one word, and the last capital `R` starts the word `Request`. -/
theorem SplitWords_XMLHTTPRequest :
    SplitWords (ascii "XMLHTTPRequest") = ["XMLHTTP", "Request"].map ascii := by
  decide

/-- The splitter finds no word exactly when the input has no letter or digit. -/
theorem SplitWords_eq_nil_iff (s : Str) :
    SplitWords s = [] ↔ ∀ c ∈ s, isAlphaNumeric c = false := by
  have hflat := words_flatten s
  have hw := words_alnum s
  constructor
  · intro h
    rw [h] at hflat
    have : s.filter isAlphaNumeric = [] := hflat.symm
    intro c hc
    have := List.filter_eq_nil_iff.mp this c hc
    simpa using this
  · intro h
    have hf : s.filter isAlphaNumeric = [] := by
      apply List.filter_eq_nil_iff.mpr
      intro c hc
      simp [h c hc]
    rw [hf] at hflat
    cases hsw : SplitWords s with
    | nil => rfl
    | cons w t =>
      rw [hsw] at hflat hw
      have h1 : w = [] := by
        have := congrArg List.length hflat
        simp at this
        exact this.1
      exact absurd h1 (hw w (by simp)).1

/-- C6: `SplitWords s` is empty if and only if `s` contains no ASCII letter or digit, and in
exactly that case each of `ToSnakeCase`, `ToConstantCase`, `ToKebabCase`, `ToCapWords` and
`ToMixedCase` returns the empty string. -/
theorem empty_iff_no_alnum (s : Str) :
    (SplitWords s = [] ↔ ∀ c ∈ s, isAlphaNumeric c = false) ∧
    (ToSnakeCase s = [] ↔ ∀ c ∈ s, isAlphaNumeric c = false) ∧
    (ToConstantCase s = [] ↔ ∀ c ∈ s, isAlphaNumeric c = false) ∧
    (ToKebabCase s = [] ↔ ∀ c ∈ s, isAlphaNumeric c = false) ∧
    (ToCapWords s = [] ↔ ∀ c ∈ s, isAlphaNumeric c = false) ∧
    (ToMixedCase s = [] ↔ ∀ c ∈ s, isAlphaNumeric c = false) := by
  have hne : ∀ w ∈ SplitWords s, w ≠ [] := fun w hw => (words_alnum s w hw).1
  have hj : ∀ sep : Str, Join (SplitWords s) sep = [] ↔ SplitWords s = [] :=
    fun sep => Join_eq_nil _ sep hne
  refine ⟨SplitWords_eq_nil_iff s, ?_, ?_, ?_, ?_, ?_⟩
  · rw [← SplitWords_eq_nil_iff, ← hj (ascii "_")]
    simp [ToSnakeCase, ToLower]
  · rw [← SplitWords_eq_nil_iff, ← hj (ascii "_")]
    simp [ToConstantCase, ToUpper]
  · rw [← SplitWords_eq_nil_iff, ← hj (ascii "-")]
    simp [ToKebabCase, ToLower]
  · rw [← SplitWords_eq_nil_iff, ToCapWords_eq]
    cases hsw : SplitWords s with
    | nil => simp
    | cons w t =>
      have h0 : capOne w ≠ [] := by
        intro h
        have := capOne_length w
        rw [h] at this
        exact hne w (by simp [hsw]) (List.length_eq_zero.mp this.symm)
      simp [h0]
  · rw [← SplitWords_eq_nil_iff]
    cases hsw : SplitWords s with
    | nil => simp [ToMixedCase, hsw, Join]
    | cons w t =>
      rw [ToMixedCase_eq s w t hsw]
      have h0 : ToLower w ≠ [] := by
        intro h
        have := ToLower_length w
        rw [h] at this
        exact hne w (by simp [hsw]) (List.length_eq_zero.mp this.symm)
      simp [h0]

/-! ## Appending digits -/

theorem isNumeric_spec {c : Nat} (h : isNumeric c = true) :
    isAlphaNumeric c = true ∧ isUpper c = false :=
  isLowerOrDigit_spec (by simp [isLowerOrDigit, h])

theorem lastTwoUpper_eq (s : Str) : lastTwoUpper s = endPair false s.reverse := by
  unfold lastTwoUpper
  generalize s.reverse = q
  rcases q with _ | ⟨b, _ | ⟨a, r⟩⟩ <;> simp [endPair]

theorem endPair_cons (up : Bool) (c : Nat) {t : Str} (ht : t ≠ []) :
    endPair up (c :: t).reverse = endPair (isUpper c) t.reverse := by
  have hr : t.reverse ≠ [] := by simpa using ht
  rw [List.reverse_cons]
  generalize t.reverse = q at hr
  rcases q with _ | ⟨b, _ | ⟨a, r⟩⟩
  · exact absurd rfl hr
  · simp [endPair]
  · simp [endPair]

theorem nextLow_append_of_ne_nil {t : Str} (d : Str) (ht : t ≠ []) :
    nextLow (t ++ d) = nextLow t := by
  cases t with
  | nil => exact absurd rfl ht
  | cons e t => rfl

/-- One byte read with the same decision whether or not `d` follows the input. -/
theorem splitFrom_step_both (up : Bool) (acc t d : Str) (c : Nat)
    (hcond : (isUpper c = true ∧ (up = false ∨ nextLow (t ++ d) = true) ∧ acc ≠ []) ↔
      (isUpper c = true ∧ (up = false ∨ nextLow t = true) ∧ acc ≠ [])) :
    ∃ (pre : List Str) (acc2 : Str), (isAlphaNumeric c = true → acc2 ≠ []) ∧
      splitFrom up acc (c :: t) = pre ++ splitFrom (isUpper c) acc2 t ∧
      splitFrom up acc (c :: (t ++ d)) = pre ++ splitFrom (isUpper c) acc2 (t ++ d) := by
  rw [splitFrom, splitFrom]
  by_cases ha : isAlphaNumeric c = false
  · have hu : isUpper c = false := by
      cases h : isUpper c with
      | false => rfl
      | true => rw [isUpper_alnum h] at ha; exact absurd ha (by simp)
    exact ⟨flush acc, [], by simp [ha], by simp [ha, hu], by simp [ha, hu]⟩
  · by_cases hb : isUpper c = true ∧ (up = false ∨ nextLow t = true) ∧ acc ≠ []
    · refine ⟨[acc], [c], by simp, ?_, ?_⟩
      · rw [if_neg ha, if_pos hb, hb.1]; rfl
      · rw [if_neg ha, if_pos (hcond.mpr hb), hb.1]; rfl
    · refine ⟨[], acc ++ [c], by simp, ?_, ?_⟩
      · rw [if_neg ha, if_neg hb]; rfl
      · rw [if_neg ha, if_neg (fun h => hb (hcond.mp h))]; rfl

/-- Appending a run `d` of lower-case letters or digits extends the last word by `d`, unless
the input ends in an upper-case letter that follows an upper-case letter. -/
theorem splitFrom_append_low (d : Str) (hd : d ≠ [])
    (hdig : ∀ c ∈ d, isAlphaNumeric c = true ∧ isUpper c = false) :
    ∀ (s : Str) (up : Bool) (acc : Str), (s = [] → acc ≠ []) →
    (∀ c ∈ s.getLast?, isAlphaNumeric c = true) → endPair up s.reverse = false →
    ∃ (init : List Str) (last : Str), splitFrom up acc s = init ++ [last] ∧
      splitFrom up acc (s ++ d) = init ++ [last ++ d] := by
  intro s
  induction s with
  | nil =>
    intro up acc hacc _ _
    refine ⟨[], acc, ?_, ?_⟩
    · simp [splitFrom, flush, hacc rfl]
    · have h := splitFrom_lowRun d [] hdig up acc hd
      rw [List.append_nil] at h
      rw [List.nil_append, h]
      simp [splitFrom, flush, hd]
  | cons c t ih =>
    intro up acc _ hlast hpair
    have hcond : (isUpper c = true ∧ (up = false ∨ nextLow (t ++ d) = true) ∧ acc ≠ []) ↔
        (isUpper c = true ∧ (up = false ∨ nextLow t = true) ∧ acc ≠ []) := by
      by_cases ht : t = []
      · subst ht
        have hp : (up && isUpper c) = false := by simpa [endPair] using hpair
        by_cases hu : isUpper c = true
        · have hupf : up = false := by simpa [hu] using hp
          simp [hupf]
        · simp [hu]
      · rw [nextLow_append_of_ne_nil d ht]
    obtain ⟨pre, acc2, hacc2, h1, h2⟩ := splitFrom_step_both up acc t d c hcond
    have hih : ∃ (init : List Str) (last : Str),
        splitFrom (isUpper c) acc2 t = init ++ [last] ∧
        splitFrom (isUpper c) acc2 (t ++ d) = init ++ [last ++ d] := by
      apply ih (isUpper c) acc2
      · intro ht
        subst ht
        exact hacc2 (hlast c (by simp))
      · intro e he
        cases t with
        | nil => simp at he
        | cons e2 t => exact hlast e (by simpa [List.getLast?_cons_cons] using he)
      · by_cases ht : t = []
        · subst ht; rfl
        · rw [← endPair_cons up c ht]; exact hpair
    obtain ⟨init, last, h3, h4⟩ := hih
    refine ⟨pre ++ init, last, ?_, ?_⟩
    · rw [h1, h3, List.append_assoc]
    · rw [List.cons_append, h2, h4, List.append_assoc]

/-- C7 (as stated, refuted): `"HTTP"` ends in a letter and `"2"` is a digit run, yet
`SplitWords "HTTP" = ["HTTP"]` and `SplitWords "HTTP2" = ["HTT", "P2"]`: the appended digit
creates a word boundary before the `P`. -/
theorem SplitWords_append_digits_fails :
    (ascii "HTTP" ≠ [] ∧ (∀ c ∈ (ascii "HTTP").getLast?, isAlphaNumeric c = true) ∧
      ascii "2" ≠ [] ∧ (∀ c ∈ ascii "2", isNumeric c = true)) ∧
    SplitWords (ascii "HTTP") = [ascii "HTTP"] ∧
    SplitWords (ascii "HTTP" ++ ascii "2") = [ascii "HTT", ascii "P2"] ∧
    SplitWords (ascii "HTTP" ++ ascii "2") ≠
      (SplitWords (ascii "HTTP")).dropLast ++
        [(SplitWords (ascii "HTTP")).getLastD [] ++ ascii "2"] := by
  decide

/-- C7 (amended): if `s` ends in an ASCII letter or digit and does not end in two upper-case
letters, then for every non-empty string `d` of decimal digits `SplitWords (s ++ d)` is
`SplitWords s` with `d` appended to its last word. -/
theorem SplitWords_append_digits (s d : Str) (hs : s ≠ [])
    (hlast : ∀ c ∈ s.getLast?, isAlphaNumeric c = true)
    (hup : lastTwoUpper s = false)
    (hd : d ≠ []) (hdig : ∀ c ∈ d, isNumeric c = true) :
    SplitWords s ≠ [] ∧
    SplitWords (s ++ d) =
      (SplitWords s).dropLast ++ [(SplitWords s).getLastD [] ++ d] := by
  obtain ⟨init, last, h1, h2⟩ :=
    splitFrom_append_low d hd (fun c hc => isNumeric_spec (hdig c hc)) s false []
      (fun h => absurd h hs) hlast (by rw [← lastTwoUpper_eq]; exact hup)
  rw [SplitWords_eq_splitFrom, SplitWords_eq_splitFrom, h1, h2]
  refine ⟨by simp, ?_⟩
  rw [List.dropLast_concat]
  simp

/-- Witness for C7 (amended): `"Example" ++ "123"` stays one word and
`"AnotherExample" ++ "123"` gives `["Another", "Example123"]`. -/
theorem SplitWords_append_digits_witness :
    SplitWords (ascii "Example" ++ ascii "123") = [ascii "Example123"] ∧
    SplitWords (ascii "AnotherExample" ++ ascii "123") = [ascii "Another", ascii "Example123"] :=
  ⟨(SplitWords_append_digits (ascii "Example") (ascii "123")
      (by decide) (by decide) (by decide) (by decide) (by decide)).2,
   (SplitWords_append_digits (ascii "AnotherExample") (ascii "123")
      (by decide) (by decide) (by decide) (by decide) (by decide)).2⟩

/-! ## Properties of the joiners -/

/-- C8: for non-empty words `ws` of lower-case ASCII letters and digits, `ToCapWords` of
`ws` joined with `-` is the concatenation of `capOne w` for `w` in `ws`, where `capOne w` is
`w` upper-cased if that is an initialism and `Capitalize w` otherwise. -/
theorem ToCapWords_joined (ws : List Str) (h : ∀ w ∈ ws, lowerRun w = true) :
    ToCapWords (Join ws (ascii "-")) = (ws.map capOne).flatten := by
  rw [ToCapWords_eq]
  have hsep : isAlphaNumeric 45 = false := by decide
  have := words_Join_lower hsep ws h
  rw [show ascii "-" = [45] from rfl, this]

/-- Witness for C8: the literal scenarios `xml-http-request`, `app-id`, `io-system-123`. -/
theorem ToCapWords_joined_witness :
    ToCapWords (ascii "xml-http-request") = ascii "XMLHTTPRequest" ∧
    ToCapWords (ascii "app-id") = ascii "AppID" ∧
    ToCapWords (ascii "io-system-123") = ascii "IOSystem123" :=
  ⟨ToCapWords_joined (["xml", "http", "request"].map ascii) (by decide),
   ToCapWords_joined (["app", "id"].map ascii) (by decide),
   ToCapWords_joined (["io", "system", "123"].map ascii) (by decide)⟩

/-- C9: if `SplitWords s = w :: rest`, then `ToMixedCase s` and `ToCapWords s` have the same
length, the first `len(w)` bytes of `ToMixedCase s` are `w` lower-cased, and the two results
agree from position `len(w)` on. -/
theorem ToMixedCase_vs_ToCapWords (s w : Str) (rest : List Str)
    (h : SplitWords s = w :: rest) :
    (ToMixedCase s).length = (ToCapWords s).length ∧
    (ToMixedCase s).take w.length = ToLower w ∧
    (ToMixedCase s).drop w.length = (ToCapWords s).drop w.length := by
  rw [ToMixedCase_eq s w rest h, ToCapWords_eq, h, List.map_cons, List.flatten_cons]
  have h1 : (ToLower w).length = w.length := ToLower_length w
  have h2 : (capOne w).length = w.length := capOne_length w
  refine ⟨?_, ?_, ?_⟩
  · simp only [List.length_append, h1, h2]
  · rw [← h1, List.take_left']
    rfl
  · rw [List.drop_left' h1, List.drop_left' h2]

/-- Witness for C9: `app-id` splits into `app` and `id`; `ToMixedCase "id" = "id"` while
`ToCapWords "id" = "ID"`, and `ToMixedCase "app-id" = "appID"`. -/
theorem ToMixedCase_vs_ToCapWords_witness :
    (SplitWords (ascii "app-id") = ascii "app" :: [ascii "id"] ∧
      (ToMixedCase (ascii "app-id")).length = (ToCapWords (ascii "app-id")).length ∧
      (ToMixedCase (ascii "app-id")).take (ascii "app").length = ToLower (ascii "app") ∧
      (ToMixedCase (ascii "app-id")).drop (ascii "app").length =
        (ToCapWords (ascii "app-id")).drop (ascii "app").length) ∧
    ToMixedCase (ascii "id") = ascii "id" ∧ ToCapWords (ascii "id") = ascii "ID" ∧
    ToMixedCase (ascii "app-id") = ascii "appID" :=
  ⟨⟨by decide,
    ToMixedCase_vs_ToCapWords (ascii "app-id") (ascii "app") [ascii "id"] (by decide)⟩,
   by decide, by decide, by decide⟩

theorem toLowerByte_ne_underscore {c : Nat} (h : isAlphaNumeric c = true) :
    toLowerByte c ≠ 95 := by
  simp only [isAlphaNumeric, isAlpha, isUpper, isLower, isNumeric, Bool.or_eq_true,
    Bool.and_eq_true, decide_eq_true_eq] at h
  unfold toLowerByte isUpper
  by_cases hu : 65 ≤ c ∧ c ≤ 90
  · simp only [hu, decide_True, Bool.and_self, if_true]
    omega
  · have : (decide (65 ≤ c) && decide (c ≤ 90)) = false := by simpa using hu
    rw [this]
    simp only [Bool.false_eq_true, if_false]
    omega

/-- C10: `ToConstantCase s` is `ToSnakeCase s` upper-cased, `ToSnakeCase s` is
`ToConstantCase s` lower-cased, and `ToKebabCase s` is `ToSnakeCase s` with every `_`
replaced by `-`. -/
theorem joiners_differ (s : Str) :
    ToConstantCase s = ToUpper (ToSnakeCase s) ∧
    ToSnakeCase s = ToLower (ToConstantCase s) ∧
    ToKebabCase s = replaceByte 95 45 (ToSnakeCase s) := by
  refine ⟨?_, ?_, ?_⟩
  · simp only [ToConstantCase, ToSnakeCase, ToUpper_ToLower]
  · simp only [ToConstantCase, ToSnakeCase, ToLower_ToUpper]
  · simp only [ToKebabCase, ToSnakeCase, ToLower, replaceByte, List.map_map, map_Join]
    have hsep1 : List.map toLowerByte (ascii "-") = [45] := by decide
    have hsep2 : List.map ((fun c => if c = 95 then 45 else c) ∘ toLowerByte) (ascii "_") =
        [45] := by decide
    rw [hsep1, hsep2]
    congr 1
    apply List.map_congr_left
    intro w hw
    rw [Function.comp_apply, List.map_map]
    apply List.map_congr_left
    intro c hc
    have := toLowerByte_ne_underscore ((words_alnum s w hw).2 c hc)
    simp [this]

/-! ## Round trip through snake case -/

theorem toLowerByte_of_not_upper {c : Nat} (h : isUpper c = false) : toLowerByte c = c := by
  simp [toLowerByte, h]

theorem ToLower_lowerRun {w : Str} (h : lowerRun w = true) : ToLower w = w := by
  obtain ⟨-, hr⟩ := lowerRun_spec h
  unfold ToLower
  conv_rhs => rw [← List.map_id w]
  exact List.map_congr_left (fun c hc => toLowerByte_of_not_upper (hr c hc).2)

/-- Lower-casing a join of lower-case words with a separator fixed by lower-casing changes
nothing. -/
theorem ToLower_Join_lower (sep : Str) (hsep : ToLower sep = sep) (ws : List Str)
    (h : ∀ w ∈ ws, lowerRun w = true) : ToLower (Join ws sep) = Join ws sep := by
  have h1 : ws.map (List.map toLowerByte) = ws := by
    conv_rhs => rw [← List.map_id ws]
    exact List.map_congr_left (fun w hw => ToLower_lowerRun (h w hw))
  have h2 : sep.map toLowerByte = sep := hsep
  unfold ToLower
  rw [map_Join, h1, h2]

/-- C11: for words `ws` that are non-empty runs of lower-case ASCII letters and digits,
`SplitWords` of `ws` joined with `_` is `ws`, and `ToSnakeCase` of `ws` joined with `_` is
that same joined string. -/
theorem snake_roundtrip (ws : List Str) (h : ∀ w ∈ ws, lowerRun w = true) :
    SplitWords (Join ws (ascii "_")) = ws ∧
    ToSnakeCase (Join ws (ascii "_")) = Join ws (ascii "_") := by
  have hsep : isAlphaNumeric 95 = false := by decide
  have hsplit : SplitWords (Join ws (ascii "_")) = ws := words_Join_lower hsep ws h
  refine ⟨hsplit, ?_⟩
  unfold ToSnakeCase
  rw [hsplit]
  exact ToLower_Join_lower (ascii "_") (by decide) ws h

/-- Witness for C11: the words `another`, `example123` joined into `another_example123`. -/
theorem snake_roundtrip_witness :
    SplitWords (ascii "another_example123") = ["another", "example123"].map ascii ∧
    ToSnakeCase (ascii "another_example123") = ascii "another_example123" :=
  snake_roundtrip (["another", "example123"].map ascii) (by decide)

/-! ## `Capitalize` -/

theorem Capitalize_cons (c : Nat) (t : Str) :
    Capitalize (c :: t) = toUpperByte c :: t.map toLowerByte := by
  simp [Capitalize, ToUpper, ToLower]

theorem toUpperByte_idem (c : Nat) : toUpperByte (toUpperByte c) = toUpperByte c := by
  unfold toUpperByte isLower
  by_cases h : 97 ≤ c ∧ c ≤ 122
  · simp [h]
    omega
  · simp [h]

theorem toLowerByte_idem (c : Nat) : toLowerByte (toLowerByte c) = toLowerByte c := by
  unfold toLowerByte isUpper
  by_cases h : 65 ≤ c ∧ c ≤ 90
  · simp [h]
    omega
  · simp [h]

/-- C12: `Capitalize "" = ""`, and for a non-empty ASCII string `s`, `Capitalize s` has the
length of `s`, its byte at index 0 is `s[0]` upper-cased, its byte at every later index is the
byte of `s` there lower-cased, and `Capitalize (Capitalize s) = Capitalize s`. -/
theorem Capitalize_contract (s : Str) (hs : s ≠ []) (hascii : ∀ c ∈ s, c < 128) :
    Capitalize [] = [] ∧
    (Capitalize s).length = s.length ∧
    (∀ i : Nat, (Capitalize s)[i]? =
      (s[i]?).map (fun c => if i = 0 then toUpperByte c else toLowerByte c)) ∧
    Capitalize (Capitalize s) = Capitalize s := by
  cases s with
  | nil => exact absurd rfl hs
  | cons c t =>
    refine ⟨rfl, Capitalize_length _, ?_, ?_⟩
    · intro i
      rw [Capitalize_cons]
      cases i with
      | zero => simp
      | succ j => simp [List.getElem?_map]
    · rw [Capitalize_cons, Capitalize_cons, toUpperByte_idem, List.map_map]
      congr 1
      exact List.map_congr_left (fun d _ => toLowerByte_idem d)

/-- Witness for C12: `Capitalize "a" = "A"` and `Capitalize "ABC" = "Abc"`, which
`Capitalize` leaves unchanged. -/
theorem Capitalize_contract_witness :
    (ascii "ABC" ≠ [] ∧ ∀ c ∈ ascii "ABC", c < 128) ∧
    Capitalize (ascii "a") = ascii "A" ∧ Capitalize (ascii "ABC") = ascii "Abc" ∧
    Capitalize (Capitalize (ascii "ABC")) = Capitalize (ascii "ABC") :=
  ⟨⟨by decide, by decide⟩, by decide, by decide,
   (Capitalize_contract (ascii "ABC") (by decide) (by decide)).2.2.2⟩

/-! ## Constant case is not idempotent -/

/-- C20: `ToConstantCase` is not idempotent: `ToConstantCase "a1b" = "A1B"` and
`ToConstantCase "A1B" = "A1_B"`, because `SplitWords "A1B" = ["A1", "B"]`. -/
theorem ToConstantCase_not_idempotent :
    ToConstantCase (ascii "a1b") = ascii "A1B" ∧
    SplitWords (ascii "A1B") = [ascii "A1", ascii "B"] ∧
    ToConstantCase (ascii "A1B") = ascii "A1_B" ∧
    ∃ s : Str, ToConstantCase (ToConstantCase s) ≠ ToConstantCase s :=
  ⟨by decide, by decide, by decide, ascii "a1b", by decide⟩

/-! ## Lower-cased words -/

theorem isAlphaNumeric_toLowerByte (c : Nat) :
    isAlphaNumeric (toLowerByte c) = isAlphaNumeric c := by
  unfold toLowerByte
  by_cases hu : isUpper c = true
  · rw [if_pos hu, isUpper_alnum hu]
    simp only [isUpper, Bool.and_eq_true, decide_eq_true_eq] at hu
    simp only [isAlphaNumeric, isAlpha, isUpper, isLower, isNumeric, Bool.or_eq_true,
      Bool.and_eq_true, decide_eq_true_eq]
    omega
  · rw [if_neg hu]

theorem isUpper_toLowerByte (c : Nat) : isUpper (toLowerByte c) = false := by
  unfold toLowerByte
  by_cases hu : isUpper c = true
  · rw [if_pos hu]
    simp only [isUpper, Bool.and_eq_true, decide_eq_true_eq] at hu
    simp only [isUpper, Bool.and_eq_false_iff, decide_eq_false_iff_not]
    omega
  · rw [if_neg hu]
    simpa using hu

/-- A byte is a lower-case letter or digit exactly when it is alphanumeric and not an
upper-case letter. -/
theorem isLowerOrDigit_iff (c : Nat) :
    isLowerOrDigit c = true ↔ isAlphaNumeric c = true ∧ isUpper c = false := by
  constructor
  · exact isLowerOrDigit_spec
  · intro ⟨h1, h2⟩
    simp only [isAlphaNumeric, isAlpha, h2, Bool.false_or] at h1
    exact h1

/-- A word of the scan, lower-cased, is a non-empty run of lower-case letters and digits. -/
theorem lowerRun_ToLower {w : Str} (h0 : w ≠ []) (h : ∀ c ∈ w, isAlphaNumeric c = true) :
    lowerRun (ToLower w) = true := by
  simp only [lowerRun, ToLower, Bool.and_eq_true, Bool.not_eq_true', List.isEmpty_eq_false,
    List.all_eq_true, List.mem_map, forall_exists_index, and_imp,
    forall_apply_eq_imp_iff₂, ne_eq, List.map_eq_nil_iff]
  refine ⟨h0, fun c hc => ?_⟩
  rw [isLowerOrDigit_iff, isAlphaNumeric_toLowerByte, isUpper_toLowerByte]
  exact ⟨h c hc, rfl⟩

theorem lowerRun_words_ToLower (s : Str) :
    ∀ w ∈ (SplitWords s).map ToLower, lowerRun w = true := by
  intro w hw
  obtain ⟨v, hv, rfl⟩ := List.mem_map.mp hw
  exact lowerRun_ToLower (words_alnum s v hv).1 (words_alnum s v hv).2

/-- The lower-cased join of the words is the join of the lower-cased words. -/
theorem ToLower_Join_words (s sep : Str) (hsep : ToLower sep = sep) :
    ToLower (Join (SplitWords s) sep) = Join ((SplitWords s).map ToLower) sep := by
  have h2 : sep.map toLowerByte = sep := hsep
  unfold ToLower
  rw [map_Join, h2]

/-- Splitting and re-joining in lower case with a separator byte is idempotent. -/
theorem lowerJoin_idem (c : Nat) (hc : isAlphaNumeric c = false) (hl : ToLower [c] = [c])
    (s : Str) :
    ToLower (Join (SplitWords (ToLower (Join (SplitWords s) [c]))) [c]) =
      ToLower (Join (SplitWords s) [c]) := by
  rw [ToLower_Join_words s [c] hl,
    words_Join_lower hc _ (lowerRun_words_ToLower s),
    ToLower_Join_lower [c] hl _ (lowerRun_words_ToLower s)]

/-- C17: `ToSnakeCase` and `ToKebabCase` are idempotent on every input. -/
theorem snake_kebab_idempotent (s : Str) :
    ToSnakeCase (ToSnakeCase s) = ToSnakeCase s ∧
    ToKebabCase (ToKebabCase s) = ToKebabCase s :=
  ⟨lowerJoin_idem 95 (by decide) (by decide) s, lowerJoin_idem 45 (by decide) (by decide) s⟩

/-! ## `ToCapWords` and `ToMixedCase` change only letter case -/

theorem ToLower_Capitalize (w : Str) : ToLower (Capitalize w) = ToLower w := by
  cases w with
  | nil => rfl
  | cons c t =>
    rw [Capitalize_cons]
    simp [ToLower, toLowerByte_toUpperByte, toLowerByte_idem]

theorem ToLower_capOne (w : Str) : ToLower (capOne w) = ToLower w := by
  unfold capOne
  split
  · exact ToLower_ToUpper w
  · exact ToLower_Capitalize w

theorem ToLower_flatten_capOne (ws : List Str) :
    ToLower (ws.map capOne).flatten = ToLower ws.flatten := by
  unfold ToLower
  rw [List.map_flatten, List.map_flatten, List.map_map]
  congr 1
  exact List.map_congr_left (fun w _ => ToLower_capOne w)

theorem ToLower_ToCapWords (s : Str) :
    ToLower (ToCapWords s) = ToLower (s.filter isAlphaNumeric) := by
  rw [ToCapWords_eq, ToLower_flatten_capOne, words_flatten]

theorem ToLower_ToMixedCase (s : Str) :
    ToLower (ToMixedCase s) = ToLower (s.filter isAlphaNumeric) := by
  rw [← words_flatten]
  cases hsw : SplitWords s with
  | nil => simp [ToMixedCase, hsw, Join]
  | cons w rest =>
    rw [ToMixedCase_eq s w rest hsw, List.flatten_cons]
    have h := ToLower_flatten_capOne rest
    unfold ToLower at h ⊢
    rw [List.map_append, List.map_append, h, List.map_map]
    congr 1
    exact List.map_congr_left (fun d _ => toLowerByte_idem d)

/-- A string whose lower-casing is the lower-casing of an alphanumeric string is
alphanumeric and has the same length. -/
theorem alnum_of_ToLower_eq {out f : Str} (h : ToLower out = ToLower f)
    (hf : ∀ c ∈ f, isAlphaNumeric c = true) :
    (∀ c ∈ out, isAlphaNumeric c = true) ∧ out.length = f.length := by
  constructor
  · intro c hc
    have h1 : toLowerByte c ∈ ToLower f := by
      rw [← h]
      exact List.mem_map.mpr ⟨c, hc, rfl⟩
    obtain ⟨d, hd, hdc⟩ := List.mem_map.mp h1
    rw [← isAlphaNumeric_toLowerByte c, ← hdc, isAlphaNumeric_toLowerByte]
    exact hf d hd
  · have := congrArg List.length h
    simpa [ToLower] using this

/-- C19: lower-casing `ToCapWords s` and lower-casing `ToMixedCase s` both give the
lower-cased alphanumeric bytes of `s`; hence both outputs consist of letters and digits only
and have as many bytes as `s` has alphanumeric bytes. -/
theorem caseOnly_ToCapWords_ToMixedCase (s : Str) :
    ToLower (ToCapWords s) = ToLower (s.filter isAlphaNumeric) ∧
    ToLower (ToMixedCase s) = ToLower (s.filter isAlphaNumeric) ∧
    ((∀ c ∈ ToCapWords s, isAlphaNumeric c = true) ∧
      (ToCapWords s).length = (s.filter isAlphaNumeric).length) ∧
    ((∀ c ∈ ToMixedCase s, isAlphaNumeric c = true) ∧
      (ToMixedCase s).length = (s.filter isAlphaNumeric).length) := by
  have hf : ∀ c ∈ s.filter isAlphaNumeric, isAlphaNumeric c = true :=
    fun c hc => (List.mem_filter.mp hc).2
  exact ⟨ToLower_ToCapWords s, ToLower_ToMixedCase s,
    alnum_of_ToLower_eq (ToLower_ToCapWords s) hf,
    alnum_of_ToLower_eq (ToLower_ToMixedCase s) hf⟩

/-! ## The initialism table -/

theorem initialisms_iff (key : Str) : initialisms key = true ↔ key ∈ initialismKeys := by
  simp [initialisms]

theorem isLower_lowerRun {w : Str} (h0 : w ≠ []) (h : ∀ c ∈ w, isLower c = true) :
    lowerRun w = true := by
  simp only [lowerRun, Bool.and_eq_true, Bool.not_eq_true', List.isEmpty_eq_false,
    List.all_eq_true]
  exact ⟨h0, fun c hc => by simp [isLowerOrDigit, h c hc]⟩

/-- `ToCapWords` of a single lower-case word is `capOne` of it. -/
theorem ToCapWords_lowerRun {w : Str} (h : lowerRun w = true) : ToCapWords w = capOne w := by
  rw [ToCapWords_eq, words_lowerRun h]
  simp

/-- C14: the initialism table holds exactly the 39 listed upper-case strings, and the lookup
upper-cases the word first: for a non-empty word `w` of lower-case ASCII letters,
`ToCapWords w` is `w` upper-cased if the upper-cased `w` is one of the 39 strings, and
otherwise `w` with only its first letter upper-cased. -/
theorem initialisms_exact (w : Str) (h0 : w ≠ []) (h : ∀ c ∈ w, isLower c = true) :
    (∀ key : Str, initialisms key = true ↔ key ∈
      ["API", "ASCII", "CPU", "CSS", "DNS", "EOF", "GUID", "HTML", "HTTP", "HTTPS", "ID",
       "IO", "IP", "JS", "JSON", "LHS", "QPS", "RAM", "RHS", "RPC", "SLA", "SMTP", "SQL",
       "SSH", "TCP", "TLS", "TTL", "UDP", "UI", "UID", "UUID", "URI", "URL", "UTF", "VM",
       "XML", "XMPP", "XSRF", "XSS"].map ascii) ∧
    initialismKeys.length = 39 ∧ initialismKeys.Nodup ∧
    (∀ key ∈ initialismKeys, acronym key = true) ∧
    ToCapWords w =
      (if ToUpper w ∈ initialismKeys then ToUpper w else ToUpper (w.take 1) ++ w.drop 1) := by
  refine ⟨fun key => initialisms_iff key, by decide, by decide, by decide, ?_⟩
  have hlow : lowerRun w = true := isLower_lowerRun h0 h
  rw [ToCapWords_lowerRun hlow]
  unfold capOne
  by_cases hk : initialisms (ToUpper w) = true
  · rw [if_pos hk, if_pos ((initialisms_iff _).mp hk)]
  · rw [if_neg hk, if_neg (fun hm => hk ((initialisms_iff _).mpr hm))]
    cases w with
    | nil => exact absurd rfl h0
    | cons c t =>
      have ht : lowerRun (c :: t) = true := hlow
      have h2 : ToLower t = t := by
        have := ToLower_lowerRun ht
        simp only [ToLower, List.map_cons, List.cons.injEq] at this
        exact this.2
      simp only [Capitalize, List.length_cons, Nat.add_one_ne_zero, if_false, List.take_succ_cons,
        List.take_zero, List.drop_succ_cons, List.drop_zero, h2]

/-- Witness for C14: `id` is an initialism in any case and becomes `ID`; `request` is not
and becomes `Request`. -/
theorem initialisms_exact_witness :
    (ascii "id" ≠ [] ∧ ∀ c ∈ ascii "id", isLower c = true) ∧
    ToUpper (ascii "id") ∈ initialismKeys ∧ ToCapWords (ascii "id") = ascii "ID" ∧
    ToUpper (ascii "request") ∉ initialismKeys ∧
    ToCapWords (ascii "request") = ascii "Request" :=
  ⟨⟨by decide, by decide⟩, by decide,
   ((initialisms_exact (ascii "id") (by decide) (by decide)).2.2.2.2).trans (by decide),
   by decide,
   ((initialisms_exact (ascii "request") (by decide) (by decide)).2.2.2.2).trans (by decide)⟩

/-! ## Output format of `ToSnakeCase` -/

theorem isLowerOrDigit_not_underscore {c : Nat} (h : isLowerOrDigit c = true) :
    isUnderscore c = false := by
  simp only [isLowerOrDigit, isLower, isNumeric, Bool.or_eq_true, Bool.and_eq_true,
    decide_eq_true_eq] at h
  simp only [isUnderscore, beq_eq_false_iff_ne, ne_eq]
  omega

theorem lowerRun_bytes {g : Str} (h : lowerRun g = true) :
    g ≠ [] ∧ ∀ c ∈ g, isLowerOrDigit c = true := by
  simpa only [lowerRun, Bool.and_eq_true, Bool.not_eq_true', List.isEmpty_eq_false,
    List.all_eq_true] using h

/-- No double underscore arises where a group without underscores meets a separator. -/
theorem adjacent_group_sep (rest : Str) (hrest : adjacent isUnderscore isUnderscore rest = false)
    (hhead : ∀ c ∈ rest.head?, isUnderscore c = false) :
    ∀ g : Str, g ≠ [] → (∀ c ∈ g, isUnderscore c = false) →
      adjacent isUnderscore isUnderscore (g ++ 95 :: rest) = false := by
  intro g
  induction g with
  | nil => intro h; exact absurd rfl h
  | cons a g ih =>
    intro _ hg
    have ha := hg a (by simp)
    cases g with
    | nil =>
      cases rest with
      | nil => simp [adjacent, ha]
      | cons r rest =>
        have hr := hhead r (by simp)
        simp [adjacent, ha, hr] at hrest ⊢
        exact hrest
    | cons b g =>
      have := ih (by simp) (fun c hc => hg c (List.mem_cons_of_mem _ hc))
      simp only [List.cons_append] at this ⊢
      rw [adjacent, this, ha]
      rfl

/-- The shape of lower-case groups joined by single underscores. -/
theorem Join_groups_format : ∀ gs : List Str, (∀ g ∈ gs, lowerRun g = true) →
    (∀ c ∈ Join gs [95], isLowerOrDigit c = true ∨ c = 95) ∧
    (∀ c ∈ (Join gs [95]).head?, isUnderscore c = false) ∧
    (∀ c ∈ (Join gs [95]).getLast?, isUnderscore c = false) ∧
    adjacent isUnderscore isUnderscore (Join gs [95]) = false ∧
    (Join gs [95]).count 95 = gs.length - 1 ∧
    (gs ≠ [] → Join gs [95] ≠ [])
  | [], _ => by simp [Join, adjacent]
  | [g], h => by
    obtain ⟨h0, hb⟩ := lowerRun_bytes (h g (by simp))
    have hu : ∀ c ∈ g, isUnderscore c = false :=
      fun c hc => isLowerOrDigit_not_underscore (hb c hc)
    refine ⟨fun c hc => Or.inl (hb c hc), ?_, ?_, ?_, ?_, fun _ => h0⟩
    · intro c hc
      exact hu c (List.mem_of_mem_head? hc)
    · intro c hc
      exact hu c (List.mem_of_mem_getLast? hc)
    · have := adjacent_group_sep [] rfl (by simp) g h0 hu
      clear hb h
      induction g with
      | nil => rfl
      | cons a g ih =>
        cases g with
        | nil => rfl
        | cons b g =>
          have ha := hu a (by simp)
          have hb2 := hu b (by simp)
          simp only [Join, adjacent, ha, Bool.false_and, Bool.false_or]
          exact ih (by simp) (fun c hc => hu c (List.mem_cons_of_mem _ hc))
            (adjacent_group_sep [] rfl (by simp) (b :: g) (by simp)
              (fun c hc => hu c (List.mem_cons_of_mem _ hc)))
    · simp only [Join, List.length_singleton, Nat.sub_self]
      apply List.count_eq_zero.mpr
      intro hm
      have := hu 95 hm
      simp [isUnderscore] at this
  | g :: g2 :: t, h => by
    obtain ⟨h0, hb⟩ := lowerRun_bytes (h g (by simp))
    have hu : ∀ c ∈ g, isUnderscore c = false :=
      fun c hc => isLowerOrDigit_not_underscore (hb c hc)
    obtain ⟨i1, i2, i3, i4, i5, i6⟩ :=
      Join_groups_format (g2 :: t) (fun w hw => h w (List.mem_cons_of_mem _ hw))
    have hne : Join (g2 :: t) [95] ≠ [] := i6 (by simp)
    rw [Join_cons_cons]
    refine ⟨?_, ?_, ?_, ?_, ?_, fun _ => by simp [h0]⟩
    · intro c hc
      simp only [List.append_assoc, List.mem_append, List.mem_singleton] at hc
      rcases hc with hc | hc | hc
      · exact Or.inl (hb c hc)
      · exact Or.inr hc
      · exact i1 c hc
    · intro c hc
      obtain ⟨a, g', rfl⟩ := List.exists_cons_of_ne_nil h0
      simp only [List.cons_append, List.head?_cons, Option.mem_def, Option.some.injEq] at hc
      subst hc
      exact hu a (by simp)
    · intro c hc
      obtain ⟨x, hx⟩ : ∃ x, (Join (g2 :: t) [95]).getLast? = some x := by
        cases hj : (Join (g2 :: t) [95]).getLast? with
        | none => exact absurd (List.getLast?_eq_none_iff.mp hj) hne
        | some x => exact ⟨x, rfl⟩
      rw [List.getLast?_append, hx] at hc
      simp only [Option.or_some, Option.mem_def, Option.some.injEq] at hc
      subst hc
      exact i3 x hx
    · rw [List.append_assoc, List.singleton_append]
      exact adjacent_group_sep _ i4 i2 g h0 hu
    · have hg0 : g.count 95 = 0 := by
        apply List.count_eq_zero.mpr
        intro hm
        have := hu 95 hm
        simp [isUnderscore] at this
      rw [List.count_append, List.count_append, hg0, i5]
      simp
      omega

/-- `ToSnakeCase s` is the lower-cased words of `s` joined by underscores. -/
theorem ToSnakeCase_eq (s : Str) :
    ToSnakeCase s = Join ((SplitWords s).map ToLower) [95] :=
  ToLower_Join_words s [95] (by decide)

/-- C18: `ToSnakeCase s` is the join, with single underscores, of as many non-empty groups of
lower-case ASCII letters and digits as `SplitWords s` has words. Every byte of it is a
lower-case letter, a digit or `_`; it neither starts nor ends with `_`; it has no `__`; and it
has one underscore fewer than there are words. -/
theorem ToSnakeCase_format (s : Str) :
    (∃ groups : List Str, (∀ g ∈ groups, lowerRun g = true) ∧
      groups.length = (SplitWords s).length ∧ ToSnakeCase s = Join groups (ascii "_")) ∧
    (ToSnakeCase s = [] ↔ SplitWords s = []) ∧
    (∀ c ∈ ToSnakeCase s, isLowerOrDigit c = true ∨ c = 95) ∧
    (∀ c ∈ (ToSnakeCase s).head?, isUnderscore c = false) ∧
    (∀ c ∈ (ToSnakeCase s).getLast?, isUnderscore c = false) ∧
    adjacent isUnderscore isUnderscore (ToSnakeCase s) = false ∧
    (ToSnakeCase s).count 95 = (SplitWords s).length - 1 := by
  have hg := lowerRun_words_ToLower s
  obtain ⟨i1, i2, i3, i4, i5, i6⟩ := Join_groups_format _ hg
  rw [← ToSnakeCase_eq] at i1 i2 i3 i4 i5 i6
  refine ⟨⟨(SplitWords s).map ToLower, hg, by simp, ToSnakeCase_eq s⟩, ?_, i1, i2, i3, i4,
    by simpa using i5⟩
  constructor
  · intro h
    by_contra hne
    exact i6 (by simpa using hne) h
  · intro h
    simp [ToSnakeCase, h, Join, ToLower]

/-! ## Bounds of the scan -/

theorem lookaheadChecked_eq (s : Str) (i : Nat) :
    lookaheadChecked s i = some (lookahead s i) := by
  unfold lookaheadChecked lookahead indexChecked
  by_cases h : i + 1 < s.length
  · rw [if_pos h, dif_pos h, List.getElem?_eq_getElem h]
    rfl
  · rw [if_neg h, dif_neg h]

/-- An iteration at an index inside the string passes every bounds check. -/
theorem scanStepChecked_eq (s : Str) (i : Nat) (st : Scan) (hi : i < s.length) :
    scanStepChecked s i st = some (scanStep s i st) := by
  unfold scanStepChecked scanStep
  simp only [lookaheadChecked_eq, Option.some_bind]
  have hsl : i > st.wordStart → sliceChecked s st.wordStart i = some (slice s st.wordStart i) := by
    intro h
    unfold sliceChecked
    rw [if_pos ⟨by omega, by omega⟩]
  split_ifs with h1 h2 h3 h4
  · rw [hsl h2.2]; rfl
  · rfl
  · rw [hsl h4]; rfl
  · rfl
  · rfl

theorem scanLoopChecked_eq (s : Str) : ∀ (n i : Nat) (st : Scan), i + n ≤ s.length →
    scanLoopChecked s n i st = some (scanLoop s n i st)
  | 0, _, _, _ => rfl
  | n + 1, i, st, h => by
    rw [scanLoopChecked, scanStepChecked_eq s i st (by omega), Option.some_bind,
      scanLoopChecked_eq s n (i + 1) _ (by omega), scanLoop]

theorem scanInitChecked_eq (s : Str) : scanInitChecked s = some (scanInit s) := by
  unfold scanInitChecked scanInit indexChecked
  by_cases h : 0 < s.length
  · rw [if_pos h, List.getElem?_eq_getElem h]
    simp [h]
  · rw [if_neg h]
    simp [h]

/-- The last of `n + 1` iterations is one step after the first `n`. -/
theorem scanLoop_succ (s : Str) : ∀ (n i : Nat) (st : Scan),
    scanLoop s (n + 1) i st = scanStep s (i + n) (scanLoop s n i st)
  | 0, _, _ => rfl
  | n + 1, i, st => by
    rw [scanLoop, scanLoop_succ s n (i + 1) (scanStep s i st), scanLoop]
    congr 1
    omega

theorem scanAt_succ (s : Str) (k : Nat) : scanAt s (k + 1) = scanStep s k (scanAt s k) := by
  unfold scanAt
  rw [scanLoop_succ, Nat.zero_add]

/-- One iteration keeps `wordStart` at most one past the index, and strictly below it when
the byte just read is alphanumeric. -/
theorem scanStep_wordStart (s : Str) (i : Nat) (st : Scan) (h : st.wordStart ≤ i) :
    (scanStep s i st).wordStart ≤ i + 1 ∧
    ((scanStep s i st).curMask &&& alphaNumMask ≠ 0 → (scanStep s i st).wordStart < i + 1) := by
  unfold scanStep
  dsimp only
  split_ifs with h1 h2 h3 <;> simp_all <;> omega

/-- One iteration takes a slice only when `wordStart < i`, and the slice is `s[wordStart:i]`. -/
theorem scanStep_words (s : Str) (i : Nat) (st : Scan)
    (h : (scanStep s i st).words ≠ st.words) :
    st.wordStart < i ∧ (scanStep s i st).words = st.words ++ [slice s st.wordStart i] := by
  unfold scanStep at h ⊢
  dsimp only at h ⊢
  split_ifs at h ⊢ with h1 h2 h3 h4
  · exact ⟨h2.2, rfl⟩
  · exact absurd rfl h
  · exact ⟨h4, rfl⟩
  · exact absurd rfl h
  · exact absurd rfl h

theorem scanAt_wordStart (s : Str) : ∀ k : Nat,
    (scanAt s k).wordStart ≤ k ∧
    ((scanAt s k).curMask &&& alphaNumMask ≠ 0 → (scanAt s k).wordStart < k)
  | 0 => by simp [scanAt, scanLoop, scanInit, nonAlphaNumMask]
  | k + 1 => by
    rw [scanAt_succ]
    exact scanStep_wordStart s k _ (scanAt_wordStart s k).1

theorem SplitWordsChecked_eq (s : Str) : SplitWordsChecked s = some (SplitWords s) := by
  unfold SplitWordsChecked SplitWords
  by_cases h : s.length = 0
  · rw [if_pos h, if_pos h]
  · rw [if_neg h, if_neg h, scanInitChecked_eq, Option.some_bind,
      scanLoopChecked_eq s s.length 0 _ (by omega), Option.some_bind]
    have hw := (scanAt_wordStart s s.length).1
    unfold scanAt at hw
    dsimp only
    split_ifs with h1
    · unfold sliceFromChecked
      rw [if_pos hw]
      rfl
    · rfl

/-- C13: `SplitWords` is total and every access is in range. The scan with Go's bounds checks
never panics and returns `SplitWords s`. At every iteration `i < len(s)`, `wordStart ≤ i`
before and `wordStart ≤ i + 1 ≤ len(s)` after the iteration, the checked lookahead and the
checked iteration succeed, the lookahead reads nothing when `i + 1 ≥ len(s)`, and a slice is
taken only with `wordStart < i ≤ len(s)`. After the loop, the final slice `s[wordStart:]` is
taken only when `wordStart < len(s)`. -/
theorem SplitWords_safe (s : Str) :
    SplitWordsChecked s = some (SplitWords s) ∧
    (∀ i : Nat, i < s.length →
      (scanAt s i).wordStart ≤ i ∧
      (scanAt s (i + 1)).wordStart ≤ i + 1 ∧ i + 1 ≤ s.length ∧
      lookaheadChecked s i = some (lookahead s i) ∧
      (s.length ≤ i + 1 → lookahead s i = nonAlphaNumMask) ∧
      scanStepChecked s i (scanAt s i) = some (scanAt s (i + 1)) ∧
      ((scanAt s (i + 1)).words ≠ (scanAt s i).words →
        (scanAt s i).wordStart < i ∧ i ≤ s.length ∧
        (scanAt s (i + 1)).words = (scanAt s i).words ++ [slice s (scanAt s i).wordStart i])) ∧
    ((scanAt s s.length).curMask &&& alphaNumMask ≠ 0 →
      (scanAt s s.length).wordStart < s.length) := by
  refine ⟨SplitWordsChecked_eq s, ?_, (scanAt_wordStart s s.length).2⟩
  intro i hi
  refine ⟨(scanAt_wordStart s i).1, (scanAt_wordStart s (i + 1)).1, hi,
    lookaheadChecked_eq s i, ?_, ?_, ?_⟩
  · intro h
    unfold lookahead
    rw [dif_neg (by omega)]
  · rw [scanAt_succ]
    exact scanStepChecked_eq s i _ hi
  · intro h
    rw [scanAt_succ] at h ⊢
    obtain ⟨h1, h2⟩ := scanStep_words s i _ h
    exact ⟨h1, by omega, h2⟩

/-! ## Shape of every word -/

theorem lowerRun_iff (w : Str) :
    lowerRun w = true ↔ w ≠ [] ∧ ∀ c ∈ w, isLowerOrDigit c = true := by
  simp only [lowerRun, Bool.and_eq_true, Bool.not_eq_true', List.isEmpty_eq_false,
    List.all_eq_true]

theorem upperRun_iff (w : Str) :
    upperRun w = true ↔ 2 ≤ w.length ∧ ∀ c ∈ w, isUpper c = true := by
  simp only [upperRun, Bool.and_eq_true, decide_eq_true_eq, List.all_eq_true]

theorem capShape_iff (w : Str) :
    capShape w = true ↔ ∃ c r, w = c :: r ∧ isUpper c = true ∧
      ∀ d ∈ r, isLowerOrDigit d = true := by
  cases w with
  | nil => simp [capShape]
  | cons c r =>
    simp only [capShape, Bool.and_eq_true, List.all_eq_true, List.cons.injEq]
    constructor
    · intro h
      exact ⟨c, r, ⟨rfl, rfl⟩, h⟩
    · rintro ⟨c2, r2, ⟨rfl, rfl⟩, h⟩
      exact h

theorem isLowerOrDigit_not_upper {c : Nat} (h : isLowerOrDigit c = true) : isUpper c = false :=
  (isLowerOrDigit_spec h).2

theorem isUpper_not_lowerOrDigit {c : Nat} (h : isUpper c = true) :
    isLowerOrDigit c = false := by
  cases h2 : isLowerOrDigit c with
  | false => rfl
  | true => rw [isLowerOrDigit_not_upper h2] at h; exact absurd h (by simp)

/-- A pending word that is closed has one of the three shapes. -/
theorem pendingOK_shape {up : Bool} {acc rest : Str} (h : pendingOK up acc rest)
    (h0 : acc ≠ []) :
    lowerRun acc = true ∨ capShape acc = true ∨ upperRun acc = true := by
  rcases h with h | ⟨h, -⟩ | ⟨c, r, rfl, hc, hr, -⟩ | ⟨-, hall, -, -⟩
  · exact absurd h h0
  · exact Or.inl h
  · exact Or.inr (Or.inl ((capShape_iff _).mpr ⟨c, r, rfl, hc, ((lowerRun_iff r).mp hr).2⟩))
  · cases acc with
    | nil => exact absurd rfl h0
    | cons c r =>
      cases r with
      | nil => exact Or.inr (Or.inl ((capShape_iff _).mpr ⟨c, [], rfl, hall c (by simp), by simp⟩))
      | cons d r => exact Or.inr (Or.inr ((upperRun_iff _).mpr ⟨by simp, hall⟩))

/-- Reading a lower-case letter or digit keeps the pending word well shaped. -/
theorem pendingOK_low {up : Bool} {acc t : Str} {c : Nat} (h : pendingOK up acc (c :: t))
    (hc : isLowerOrDigit c = true) : pendingOK false (acc ++ [c]) t := by
  have hlc : lowerRun [c] = true := (lowerRun_iff _).mpr ⟨by simp, by simpa using hc⟩
  rcases h with h | ⟨h, -⟩ | ⟨u, r, rfl, hu, hr, -⟩ | ⟨h0, hall, -, hnl⟩
  · subst h
    exact Or.inr (Or.inl ⟨hlc, rfl⟩)
  · refine Or.inr (Or.inl ⟨(lowerRun_iff _).mpr ⟨by simp, ?_⟩, rfl⟩)
    intro d hd
    rcases List.mem_append.mp hd with hd | hd
    · exact ((lowerRun_iff _).mp h).2 d hd
    · simp only [List.mem_singleton] at hd
      rw [hd]; exact hc
  · refine Or.inr (Or.inr (Or.inl ⟨u, r ++ [c], rfl, hu, (lowerRun_iff _).mpr ⟨by simp, ?_⟩, rfl⟩))
    intro d hd
    rcases List.mem_append.mp hd with hd | hd
    · exact ((lowerRun_iff _).mp hr).2 d hd
    · simp only [List.mem_singleton] at hd
      rw [hd]; exact hc
  · obtain ⟨u, r, rfl⟩ := List.exists_cons_of_ne_nil h0
    cases r with
    | nil =>
      exact Or.inr (Or.inr (Or.inl ⟨u, [c], rfl, hall u (by simp), hlc, rfl⟩))
    | cons d r =>
      have := hnl (by simp)
      obtain ⟨ha, hnu⟩ := isLowerOrDigit_spec hc
      simp [nextLow, ha, hnu] at this

/-- Reading an upper-case letter at which the camel-case rule does not fire keeps the pending
word well shaped. -/
theorem pendingOK_up {up : Bool} {acc t : Str} {c : Nat} (h : pendingOK up acc (c :: t))
    (hc : isUpper c = true)
    (hno : ¬ (isUpper c = true ∧ (up = false ∨ nextLow t = true) ∧ acc ≠ [])) :
    pendingOK true (acc ++ [c]) t := by
  by_cases h0 : acc = []
  · subst h0
    exact Or.inr (Or.inr (Or.inr ⟨by simp, by simpa using hc, rfl, by simp⟩))
  · have hup : up = true ∧ nextLow t = false := by
      cases up <;> cases hn : nextLow t <;> simp_all
    rcases h with h | ⟨-, h⟩ | ⟨u, r, -, -, -, h⟩ | ⟨-, hall, -, -⟩
    · exact absurd h h0
    · rw [hup.1] at h; exact absurd h (by simp)
    · rw [hup.1] at h; exact absurd h (by simp)
    · refine Or.inr (Or.inr (Or.inr ⟨by simp, ?_, rfl, fun _ => hup.2⟩))
      intro d hd
      rcases List.mem_append.mp hd with hd | hd
      · exact hall d hd
      · simp only [List.mem_singleton] at hd
        rw [hd]; exact hc

/-- Every word produced from a well-shaped pending word has one of the three shapes. -/
theorem splitFrom_shape (rest : Str) : ∀ (up : Bool) (acc : Str), pendingOK up acc rest →
    ∀ w ∈ splitFrom up acc rest,
      lowerRun w = true ∨ capShape w = true ∨ upperRun w = true := by
  induction rest with
  | nil =>
    intro up acc hP w hw
    unfold splitFrom flush at hw
    split_ifs at hw with h
    · simp at hw
    · simp only [List.mem_singleton] at hw
      subst hw
      exact pendingOK_shape hP h
  | cons c t ih =>
    intro up acc hP w hw
    unfold splitFrom at hw
    split_ifs at hw with h1 h2
    · rcases List.mem_append.mp hw with hw | hw
      · unfold flush at hw
        split_ifs at hw with h
        · simp at hw
        · simp only [List.mem_singleton] at hw
          subst hw
          exact pendingOK_shape hP h
      · exact ih false [] (Or.inl rfl) w hw
    · rcases List.mem_cons.mp hw with hw | hw
      · subst hw
        exact pendingOK_shape hP h2.2.2
      · refine ih true [c] ?_ w hw
        exact Or.inr (Or.inr (Or.inr ⟨by simp, by simpa using h2.1, rfl, by simp⟩))
    · have ha : isAlphaNumeric c = true := by simpa using h1
      by_cases hu : isUpper c = true
      · rw [hu] at hw
        exact ih true (acc ++ [c]) (pendingOK_up hP hu h2) w hw
      · have hu2 : isUpper c = false := by simpa using hu
        rw [hu2] at hw
        exact ih false (acc ++ [c])
          (pendingOK_low hP ((isLowerOrDigit_iff c).mpr ⟨ha, hu2⟩)) w hw

/-- Each word of the scan has one of the three shapes. -/
theorem words_shape (s : Str) :
    ∀ w ∈ SplitWords s, lowerRun w = true ∨ capShape w = true ∨ upperRun w = true := by
  rw [SplitWords_eq_splitFrom]
  exact splitFrom_shape s false [] (Or.inl rfl)

theorem adjacent_of_tail (p q : Nat → Bool) :
    ∀ w : Str, (∀ c ∈ w.tail, q c = false) → adjacent p q w = false
  | [], _ => rfl
  | [_], _ => rfl
  | a :: b :: t, h => by
    rw [adjacent, h b (by simp), adjacent_of_tail p q (b :: t) (fun c hc => h c (by
      simp only [List.tail_cons] at hc ⊢
      exact List.mem_cons_of_mem _ hc))]
    simp

theorem adjacent_of_all (p q : Nat → Bool) :
    ∀ w : Str, (∀ c ∈ w, p c = false) → adjacent p q w = false
  | [], _ => rfl
  | [_], _ => rfl
  | a :: b :: t, h => by
    rw [adjacent, h a (by simp),
      adjacent_of_all p q (b :: t) (fun c hc => h c (List.mem_cons_of_mem _ hc))]
    simp

theorem adjacent3_of_tail (p q r : Nat → Bool) :
    ∀ w : Str, (∀ c ∈ w.tail, q c = false) → adjacent3 p q r w = false
  | [], _ => rfl
  | [_], _ => rfl
  | [_, _], _ => rfl
  | a :: b :: c :: t, h => by
    rw [adjacent3, h b (by simp), adjacent3_of_tail p q r (b :: c :: t) (fun d hd => h d (by
      simp only [List.tail_cons] at hd ⊢
      exact List.mem_cons_of_mem _ hd))]
    simp

theorem adjacent3_of_all (p q r : Nat → Bool) :
    ∀ w : Str, (∀ c ∈ w, r c = false) → adjacent3 p q r w = false
  | [], _ => rfl
  | [_], _ => rfl
  | [_, _], _ => rfl
  | a :: b :: c :: t, h => by
    rw [adjacent3, h c (by simp),
      adjacent3_of_all p q r (b :: c :: t) (fun d hd => h d (List.mem_cons_of_mem _ hd))]
    simp

theorem lowerRun_excl {w : Str} (h : lowerRun w = true) :
    capShape w = false ∧ upperRun w = false := by
  obtain ⟨h0, hb⟩ := (lowerRun_iff w).mp h
  obtain ⟨c, r, rfl⟩ := List.exists_cons_of_ne_nil h0
  have hc : isUpper c = false := isLowerOrDigit_not_upper (hb c (by simp))
  simp [capShape, upperRun, hc]

theorem capShape_excl {w : Str} (h : capShape w = true) :
    lowerRun w = false ∧ upperRun w = false := by
  obtain ⟨c, r, rfl, hc, hr⟩ := (capShape_iff w).mp h
  constructor
  · simp [lowerRun, isUpper_not_lowerOrDigit hc]
  · cases r with
    | nil => simp [upperRun]
    | cons d r =>
      have hd : isUpper d = false := isLowerOrDigit_not_upper (hr d (by simp))
      simp [upperRun, hd]

/-- A word of one of the three shapes has no upper-case letter right after a lower-case
letter or digit, and no two upper-case letters followed by a lower-case letter or digit. -/
theorem shape_adjacent {w : Str}
    (h : lowerRun w = true ∨ capShape w = true ∨ upperRun w = true) :
    adjacent isLowerOrDigit isUpper w = false ∧
    adjacent3 isUpper isUpper isLowerOrDigit w = false := by
  rcases h with h | h | h
  · have ht : ∀ c ∈ w.tail, isUpper c = false := fun c hc =>
      isLowerOrDigit_not_upper (((lowerRun_iff w).mp h).2 c (List.mem_of_mem_tail hc))
    exact ⟨adjacent_of_tail _ _ w ht, adjacent3_of_tail _ _ _ w ht⟩
  · obtain ⟨c, r, rfl, -, hr⟩ := (capShape_iff w).mp h
    have ht : ∀ d ∈ (c :: r).tail, isUpper d = false := fun d hd =>
      isLowerOrDigit_not_upper (hr d hd)
    exact ⟨adjacent_of_tail _ _ _ ht, adjacent3_of_tail _ _ _ _ ht⟩
  · have ha : ∀ c ∈ w, isLowerOrDigit c = false := fun c hc =>
      isUpper_not_lowerOrDigit (((upperRun_iff w).mp h).2 c hc)
    exact ⟨adjacent_of_all _ _ w ha, adjacent3_of_all _ _ _ w ha⟩

/-- C16: each word of `SplitWords s` has exactly one of three shapes: a non-empty run of
lower-case letters and digits; one upper-case letter followed by zero or more lower-case
letters and digits; or a run of two or more upper-case letters. In particular no word has an
upper-case letter right after a lower-case letter or digit, and no word has two upper-case
letters followed by a lower-case letter or digit. -/
theorem SplitWords_shape (s : Str) : ∀ w ∈ SplitWords s,
    ((lowerRun w = true ∧ capShape w = false ∧ upperRun w = false) ∨
     (lowerRun w = false ∧ capShape w = true ∧ upperRun w = false) ∨
     (lowerRun w = false ∧ capShape w = false ∧ upperRun w = true)) ∧
    adjacent isLowerOrDigit isUpper w = false ∧
    adjacent3 isUpper isUpper isLowerOrDigit w = false := by
  intro w hw
  have h := words_shape s w hw
  refine ⟨?_, shape_adjacent h⟩
  rcases h with h | h | h
  · exact Or.inl ⟨h, lowerRun_excl h⟩
  · exact Or.inr (Or.inl ⟨(capShape_excl h).1, h, (capShape_excl h).2⟩)
  · refine Or.inr (Or.inr ⟨?_, ?_, h⟩)
    · cases hl : lowerRun w with
      | false => rfl
      | true => rw [(lowerRun_excl hl).2] at h; exact absurd h (by simp)
    · cases hc : capShape w with
      | false => rfl
      | true => rw [(capShape_excl hc).2] at h; exact absurd h (by simp)

/-- Witness for C16: the words of `parseHTTPResponse2xx` are `parse`, `HTTP`, `Response2xx`,
and `HTTP` is a run of upper-case letters only. -/
theorem SplitWords_shape_witness :
    SplitWords (ascii "parseHTTPResponse2xx") = ["parse", "HTTP", "Response2xx"].map ascii ∧
    (lowerRun (ascii "HTTP") = false ∧ capShape (ascii "HTTP") = false ∧
      upperRun (ascii "HTTP") = true) ∧
    adjacent isLowerOrDigit isUpper (ascii "HTTP") = false ∧
    adjacent3 isUpper isUpper isLowerOrDigit (ascii "HTTP") = false :=
  ⟨by decide,
   ((SplitWords_shape (ascii "parseHTTPResponse2xx") (ascii "HTTP") (by decide)).1.resolve_left
      (by decide)).resolve_left (by decide),
   (SplitWords_shape (ascii "parseHTTPResponse2xx") (ascii "HTTP") (by decide)).2⟩

/-! ## The scan implements the camel-case rule -/

theorem mem_offsets : ∀ (ws : List Str) (off i : Nat),
    i ∈ offsets off ws ↔
      ∃ k, 0 < k ∧ k < ws.length ∧ off + ((ws.take k).flatten).length = i
  | [], off, i => by simp [offsets]
  | [w], off, i => by
    simp only [offsets, List.not_mem_nil, List.length_singleton, false_iff, not_exists, not_and]
    intro k h1 h2
    omega
  | w :: v :: t, off, i => by
    rw [offsets, List.mem_cons, mem_offsets (v :: t) (off + w.length) i]
    constructor
    · rintro (h | ⟨k, hk0, hk1, hk2⟩)
      · exact ⟨1, by omega, by simp, by simp [h]⟩
      · refine ⟨k + 1, by omega, by simpa using hk1, ?_⟩
        rw [List.take_succ_cons, List.flatten_cons, List.length_append]
        omega
    · rintro ⟨k, hk0, hk1, hk2⟩
      obtain ⟨j, rfl⟩ : ∃ j, k = j + 1 := ⟨k - 1, by omega⟩
      rw [List.take_succ_cons, List.flatten_cons, List.length_append] at hk2
      by_cases hj : j = 0
      · subst hj
        left
        simp at hk2
        omega
      · right
        exact ⟨j, by omega, by simpa using hk1, by omega⟩

theorem splitFrom_ne_nil (rest : Str) : ∀ (up : Bool) (acc : Str), acc ≠ [] →
    splitFrom up acc rest ≠ [] := by
  induction rest with
  | nil => intro up acc h; simp [splitFrom, flush, h]
  | cons c t ih =>
    intro up acc h
    unfold splitFrom
    split_ifs
    · simp [flush, h]
    · simp
    · exact ih _ _ (by simp)

theorem offsets_cons (off : Nat) (w : Str) {X : List Str} (hX : X ≠ []) :
    offsets off (w :: X) = (off + w.length) :: offsets (off + w.length) X := by
  obtain ⟨v, t, rfl⟩ := List.exists_cons_of_ne_nil hX
  rfl

/-- On alphanumeric input with a non-empty pending word, words begin exactly where the rule
of the scan fires. -/
theorem offsets_splitFrom (rest : Str) (hrest : ∀ c ∈ rest, isAlphaNumeric c = true) :
    ∀ (up : Bool) (acc : Str) (off : Nat), acc ≠ [] →
    offsets off (splitFrom up acc rest) = rulePos up (off + acc.length) rest := by
  induction rest with
  | nil =>
    intro up acc off h
    simp [splitFrom, flush, h, offsets, rulePos]
  | cons c t ih =>
    intro up acc off h
    have hc : isAlphaNumeric c = true := hrest c (by simp)
    have ht : ∀ d ∈ t, isAlphaNumeric d = true := fun d hd => hrest d (List.mem_cons_of_mem _ hd)
    rw [splitFrom, rulePos]
    by_cases hb : isUpper c = true ∧ (up = false ∨ nextLow t = true)
    · have hb2 : isUpper c = true ∧ (up = false ∨ nextLow t = true) ∧ acc ≠ [] :=
        ⟨hb.1, hb.2, h⟩
      rw [if_neg (by simp [hc]), if_pos hb2, if_pos hb,
        offsets_cons off acc (splitFrom_ne_nil t true [c] (by simp)),
        ih ht true [c] (off + acc.length) (by simp), hb.1]
      rfl
    · have hb2 : ¬ (isUpper c = true ∧ (up = false ∨ nextLow t = true) ∧ acc ≠ []) :=
        fun h2 => hb ⟨h2.1, h2.2.1⟩
      rw [if_neg (by simp [hc]), if_neg hb2, if_neg hb,
        ih ht (isUpper c) (acc ++ [c]) off (by simp)]
      simp [Nat.add_assoc]

theorem nextLow_cons (d : Nat) (t : Str) : nextLow (d :: t) = isLowerOrDigit d := by
  rw [Bool.eq_iff_iff, isLowerOrDigit_iff]
  simp [nextLow]

theorem getD_append_mid (pre t : Str) (c : Nat) :
    (pre ++ c :: t).getD pre.length 0 = c := by
  rw [List.getD_eq_getElem?_getD, List.getElem?_append_right (Nat.le_refl _)]
  simp

/-- The rule of the specification at the first unread byte, in terms of the scan. -/
theorem camelRule_at (pre t : Str) (c : Nat) (up : Bool)
    (hup : up = isUpper ((pre ++ c :: t).getD (pre.length - 1) 0)) :
    camelRule (pre ++ c :: t) pre.length = (isUpper c && (!up || nextLow t)) := by
  unfold camelRule
  rw [getD_append_mid, ← hup]
  cases t with
  | nil => simp [nextLow]
  | cons d t =>
    have h1 : (pre ++ c :: d :: t).getD (pre.length + 1) 0 = d := by
      have := getD_append_mid (pre ++ [c]) t d
      simpa using this
    rw [h1, nextLow_cons]
    simp

theorem mem_rulePos (rest : Str) : ∀ (pre : Str) (up : Bool),
    up = isUpper ((pre ++ rest).getD (pre.length - 1) 0) →
    ∀ i : Nat, i ∈ rulePos up pre.length rest ↔
      pre.length ≤ i ∧ i < (pre ++ rest).length ∧ camelRule (pre ++ rest) i = true := by
  induction rest with
  | nil =>
    intro pre up _ i
    simp only [rulePos, List.not_mem_nil, List.append_nil, false_iff, not_and]
    intro h1 h2
    omega
  | cons c t ih =>
    intro pre up hup i
    have hs : pre ++ c :: t = (pre ++ [c]) ++ t := by simp
    have hlen : (pre ++ [c]).length = pre.length + 1 := by simp
    have hup2 : isUpper c = isUpper (((pre ++ [c]) ++ t).getD ((pre ++ [c]).length - 1) 0) := by
      rw [← hs, hlen, Nat.add_sub_cancel, getD_append_mid]
    have key := ih (pre ++ [c]) (isUpper c) hup2 i
    rw [hlen, ← hs] at key
    have hrule := camelRule_at pre t c up hup
    rw [rulePos, List.mem_append, key]
    constructor
    · rintro (h | ⟨h1, h2, h3⟩)
      · split_ifs at h with hb
        · simp only [List.mem_singleton] at h
          subst h
          refine ⟨Nat.le_refl _, by simp, ?_⟩
          rw [hrule, hb.1]
          rcases hb.2 with h2 | h2 <;> simp [h2]
        · simp at h
      · exact ⟨by omega, h2, h3⟩
    · rintro ⟨h1, h2, h3⟩
      by_cases hi : i = pre.length
      · left
        subst hi
        rw [hrule] at h3
        simp only [Bool.and_eq_true, Bool.or_eq_true, Bool.not_eq_true'] at h3
        rw [if_pos h3]
        simp
      · right
        exact ⟨by omega, h2, h3⟩

/-- C15: on a string `s` of ASCII letters and digits, and for `0 < i < len(s)`, a word of
`SplitWords s` begins at offset `i` if and only if the camel-case rule of the specification
holds at `i`: `s[i]` is an upper-case letter and either `s[i-1]` is not an upper-case letter
or `s[i+1]` exists and is a lower-case letter or digit. -/
theorem camel_boundary_rule (s : Str) (i : Nat) (hs : ∀ c ∈ s, isAlphaNumeric c = true)
    (h0 : 0 < i) (hi : i < s.length) :
    wordBeginsAt (SplitWords s) i ↔ camelRule s i = true := by
  cases s with
  | nil => simp at hi
  | cons c t =>
    have hc : isAlphaNumeric c = true := hs c (by simp)
    have ht : ∀ d ∈ t, isAlphaNumeric d = true := fun d hd => hs d (List.mem_cons_of_mem _ hd)
    have hsplit : SplitWords (c :: t) = splitFrom (isUpper c) [c] t := by
      rw [SplitWords_eq_splitFrom, splitFrom]
      simp [hc]
    have hoff := offsets_splitFrom t ht (isUpper c) [c] 0 (by simp)
    have hmem := mem_offsets (splitFrom (isUpper c) [c] t) 0 i
    have hrule := mem_rulePos t [c] (isUpper c) (by simp) i
    simp only [Nat.zero_add, List.length_singleton, List.singleton_append] at hoff hmem hrule
    unfold wordBeginsAt
    rw [hsplit, ← hmem, hoff, hrule]
    constructor
    · exact fun h => h.2.2
    · exact fun h => ⟨h0, hi, h⟩

/-- Witness for C15: in `XMLToJSON` a word begins at offset 3 (`T`: after the upper-case `L`,
before the lower-case `o`), where the rule holds, while at offset 1 the rule does not hold. -/
theorem camel_boundary_rule_witness :
    ((∀ c ∈ ascii "XMLToJSON", isAlphaNumeric c = true) ∧ 0 < 3 ∧
      3 < (ascii "XMLToJSON").length) ∧
    camelRule (ascii "XMLToJSON") 3 = true ∧ camelRule (ascii "XMLToJSON") 1 = false ∧
    wordBeginsAt (SplitWords (ascii "XMLToJSON")) 3 ∧
    ¬ wordBeginsAt (SplitWords (ascii "XMLToJSON")) 1 :=
  ⟨⟨by decide, by decide, by decide⟩, by decide, by decide,
   (camel_boundary_rule (ascii "XMLToJSON") 3 (by decide) (by decide) (by decide)).mpr
     (by decide),
   fun h => absurd
     ((camel_boundary_rule (ascii "XMLToJSON") 1 (by decide) (by decide) (by decide)).mp h)
     (by decide)⟩

end Words
